import Mathlib

/-!
# Verification of the WNS resolver browser extension core

Shallow embedding of the address-resolution engine of the
`wns-resolver-browser-ext` repository (files `chrome/background.js`,
`chrome/content.js`, `chrome/config.js`) together with proofs about the
specification's claims.

Strings are modelled as `List Char`.  JavaScript numbers appearing in the
decoder are modelled as `Option Int` (with `none` playing the role of `NaN`);
all integer-valued computations of the source are exact in the modelled
range.  External browser built-ins (the URL parser, the regular-expression
engine applied to *user-configured* patterns, the network transport, the
key-value store and the clock) are modelled as explicit inputs, since the
specification treats them as injected collaborators.
-/

namespace WNS

/-! ## Character utilities -/

/-- ASCII hexadecimal digit (the character class `[0-9a-fA-F]` used by every
pattern in the source). -/
def isHexDigit (c : Char) : Bool :=
  ('0' ≤ c ∧ c ≤ '9') ∨ ('a' ≤ c ∧ c ≤ 'f') ∨ ('A' ≤ c ∧ c ≤ 'F')

/-- Regular-expression word character `[A-Za-z0-9_]`, used for the `\b`
boundaries of the default patterns. -/
def isWordChar (c : Char) : Bool :=
  ('0' ≤ c ∧ c ≤ '9') ∨ ('a' ≤ c ∧ c ≤ 'z') ∨ ('A' ≤ c ∧ c ≤ 'Z') ∨ c = '_'

/-- `String.prototype.toLowerCase` restricted to the ASCII plane; every string
the engine lowercases (addresses, hex bodies, URL components) is ASCII. -/
def toLowerJs (c : Char) : Char :=
  if 'A' ≤ c ∧ c ≤ 'Z' then Char.ofNat (c.toNat + 32) else c

/-- Lowercase an entire modelled string. -/
def lowerStr (s : List Char) : List Char := s.map toLowerJs

/-- Value of one hexadecimal digit character. -/
def hexDigitVal (c : Char) : Nat :=
  if '0' ≤ c ∧ c ≤ '9' then c.toNat - '0'.toNat
  else if 'a' ≤ c ∧ c ≤ 'f' then c.toNat - 'a'.toNat + 10
  else if 'A' ≤ c ∧ c ≤ 'F' then c.toNat - 'A'.toNat + 10
  else 0

/-- The lowercase hexadecimal digit character for a value below 16
(as produced by JavaScript `Number.prototype.toString(16)`). -/
def hexDigitChar (n : Nat) : Char :=
  if n < 10 then Char.ofNat ('0'.toNat + n) else Char.ofNat ('a'.toNat + (n - 10))

/-- Recursion worker for `natToHex`; `fuel` only drives termination and is
always ample at the call site. -/
def natToHexAux (fuel v : Nat) : List Char :=
  match fuel with
  | 0 => []
  | fuel + 1 =>
    if v < 16 then [hexDigitChar v]
    else natToHexAux fuel (v / 16) ++ [hexDigitChar (v % 16)]

/-- JavaScript `n.toString(16)` for a non-negative integer: lowercase hex
numeral without leading zeros (`"0"` for zero). -/
def natToHex (v : Nat) : List Char := natToHexAux (v + 1) v

/-- Numerical value of a hexadecimal numeral. -/
def hexVal (ds : List Char) : Nat :=
  ds.foldl (fun acc c => acc * 16 + hexDigitVal c) 0

/-! ## ABI helpers (`background.js`) -/

/-- Hex chars per 32-byte ABI word (`const W = 64`). -/
def W : Nat := 64

/-- `keccak256("reverseResolve(address)")[0..3]` selector constant. -/
def REVERSE_RESOLVE_SELECTOR : List Char := "0x9af8b7aa".toList

/-- Multicall3 `aggregate3` selector constant. -/
def AGGREGATE3_SELECTOR : List Char := "0x82ad56cb".toList

/-- The WNS name-service contract address constant. -/
def WNS_CONTRACT : List Char := "0x0000000000696760E15f265e828DB644A0c242EB".toList

/-- `String.prototype.replace(pat, '')` — removes the *first* occurrence of
`pat`, leaving the string unchanged when `pat` does not occur. -/
def replaceFirst (pat : List Char) : List Char → List Char
  | [] => []
  | c :: rest =>
    if pat.isPrefixOf (c :: rest) then (c :: rest).drop pat.length
    else c :: replaceFirst pat rest

/-- `pad32`: left-pad a hex string to a full 32-byte word
(`hex.padStart(64, '0')`). -/
def pad32 (hex : List Char) : List Char :=
  List.replicate (W - hex.length) '0' ++ hex

/-- `padEnd(64, '0')` as used for the trailing calldata word. -/
def padEnd64 (hex : List Char) : List Char :=
  hex ++ List.replicate (W - hex.length) '0'

/-- `encodeReverseResolve(address)`: inner calldata for one address. -/
def encodeReverseResolve (address : List Char) : List Char :=
  REVERSE_RESOLVE_SELECTOR ++ pad32 (replaceFirst ['0', 'x'] (lowerStr address))

/-- `encodeMulticall(addresses)`: ABI-encode an `aggregate3` call for
Multicall3, word for word as in the source. -/
def encodeMulticall (addresses : List (List Char)) : List Char :=
  let n := addresses.length
  let headWords : List (List Char) :=
    pad32 ['2', '0'] :: pad32 (natToHex n) ::
      (List.range n).map (fun i => pad32 (natToHex (n * 32 + i * 6 * 32)))
  let wnsTarget := replaceFirst ['0', 'x'] (lowerStr WNS_CONTRACT)
  let elemWords : List (List Char) :=
    addresses.flatMap (fun addr =>
      let cd := (encodeReverseResolve addr).drop 2
      [pad32 wnsTarget, pad32 ['1'], pad32 ['6', '0'], pad32 ['2', '4'],
        cd.take W, padEnd64 (cd.drop W)])
  AGGREGATE3_SELECTOR ++ (headWords ++ elemWords).flatten

/-- Syntactic validity of a full address: the anchored pattern
`^0x[0-9a-fA-F]{40}$` (`VALID_ADDR` / `VALID_ETH_RE`). -/
def validEthAddr (s : List Char) : Bool :=
  s.length = 42 ∧ ['0', 'x'].isPrefixOf s ∧ (s.drop 2).all isHexDigit

/-! ## Claim-side description of the `aggregate3` calldata layout (C1) -/

/-- A 32-byte ABI word holding the numeric value `v`: the hex numeral of `v`
left-zero-padded to 64 hex characters. -/
def hexWord64 (v : Nat) : List Char := pad32 (natToHex v)

/-- The 36-byte inner calldata for one address, as the claim describes it:
the inner 4-byte selector followed by the input address lowercased, stripped
of `0x`, and left-padded to 32 bytes. -/
def innerCalldata (a : List Char) : List Char :=
  "9af8b7aa".toList ++ List.replicate 24 '0' ++ lowerStr (a.drop 2)

/-- The word holding the WNS target contract address left-padded to
32 bytes. -/
def wnsTargetWord : List Char :=
  List.replicate 24 '0' ++ lowerStr (WNS_CONTRACT.drop 2)

/-- The six words of one element tuple, as the claim describes them. -/
def claimElemWords (a : List Char) : List (List Char) :=
  [wnsTargetWord, hexWord64 1, hexWord64 0x60, hexWord64 0x24,
    (innerCalldata a ++ List.replicate 56 '0').take 64,
    (innerCalldata a ++ List.replicate 56 '0').drop 64]

/-- The full word sequence the claim asserts for `encodeMulticall`. -/
def claimWords (addresses : List (List Char)) : List (List Char) :=
  let n := addresses.length
  hexWord64 0x20 :: hexWord64 n ::
    ((List.range n).map (fun i => hexWord64 (32 * n + 192 * i))
      ++ addresses.flatMap claimElemWords)

/-! ### Supporting lemmas about hex numerals -/

theorem natToHexAux_length_le {fuel v k : Nat} (hk : 0 < k) (hv : v < 16 ^ k) :
    (natToHexAux fuel v).length ≤ k := by
  induction fuel generalizing v k with
  | zero => simp [natToHexAux]
  | succ fuel ih =>
    rw [natToHexAux]
    split
    · simpa using hk
    · rename_i h
      have h16 : 16 ≤ v := Nat.le_of_not_lt h
      have hk2 : 2 ≤ k := by
        by_contra hlt
        interval_cases k <;> omega
      have hpow : 16 ^ (k - 1) * 16 = 16 ^ k := by
        rw [← Nat.pow_succ]
        congr 1
        omega
      have hdiv : v / 16 < 16 ^ (k - 1) := by omega
      have := ih (v := v / 16) (k := k - 1) (by omega) hdiv
      simp only [List.length_append, List.length_cons, List.length_nil]
      omega

theorem natToHex_length_le {v k : Nat} (hk : 0 < k) (hv : v < 16 ^ k) :
    (natToHex v).length ≤ k :=
  natToHexAux_length_le hk hv

theorem hexVal_append (l r : List Char) :
    hexVal (l ++ r) = r.foldl (fun acc c => acc * 16 + hexDigitVal c) (hexVal l) := by
  simp [hexVal, List.foldl_append]

theorem hexDigitVal_hexDigitChar {v : Nat} (hv : v < 16) :
    hexDigitVal (hexDigitChar v) = v := by
  interval_cases v <;> decide

theorem hexVal_natToHexAux {fuel v : Nat} (hv : v < 16 ^ fuel) :
    hexVal (natToHexAux fuel v) = v := by
  induction fuel generalizing v with
  | zero =>
    simp only [Nat.pow_zero, Nat.lt_one_iff] at hv
    simp [natToHexAux, hexVal, hv]
  | succ fuel ih =>
    rw [natToHexAux]
    split
    · rename_i h
      simp [hexVal, hexDigitVal_hexDigitChar h]
    · rename_i h
      have h16 : 16 ≤ v := Nat.le_of_not_lt h
      have hpow : 16 ^ (fuel + 1) = 16 ^ fuel * 16 := Nat.pow_succ ..
      have hdiv : v / 16 < 16 ^ fuel := by omega
      rw [hexVal_append]
      simp only [List.foldl_cons, List.foldl_nil, ih hdiv]
      rw [hexDigitVal_hexDigitChar (Nat.mod_lt _ (by omega))]
      omega

theorem hexVal_natToHex (v : Nat) : hexVal (natToHex v) = v := by
  have h2 : v < 16 ^ (v + 1) := by
    have hs : 16 ^ v ≤ 16 ^ (v + 1) := Nat.pow_le_pow_right (by omega) (by omega)
    have := Nat.lt_pow_self (a := 16) (by norm_num) v
    omega
  exact hexVal_natToHexAux h2

theorem hexVal_replicate_zero_append (k : Nat) (ds : List Char) :
    hexVal (List.replicate k '0' ++ ds) = hexVal ds := by
  induction k with
  | zero => simp
  | succ k ih =>
    rw [List.replicate_succ, List.cons_append]
    simp only [hexVal, List.foldl_cons] at ih ⊢
    have h0 : hexDigitVal '0' = 0 := by decide
    simpa [h0] using ih

theorem hexVal_hexWord64 (v : Nat) : hexVal (hexWord64 v) = v := by
  rw [hexWord64, pad32, hexVal_replicate_zero_append, hexVal_natToHex]

theorem hexWord64_length {v : Nat} (hv : v < 16 ^ 64) :
    (hexWord64 v).length = 64 := by
  have := natToHex_length_le (k := 64) (by omega) hv
  simp only [hexWord64, pad32, W, List.length_append, List.length_replicate]
  omega

theorem flatMap_congr' {α β : Type} {l : List α} {f g : α → List β}
    (h : ∀ a ∈ l, f a = g a) : l.flatMap f = l.flatMap g := by
  induction l with
  | nil => rfl
  | cons a t ih =>
    simp only [List.flatMap_cons]
    rw [h a (by simp), ih (fun b hb => h b (by simp [hb]))]

theorem length_flatMap_const {α β : Type} {l : List α} {f : α → List β} {k : Nat}
    (h : ∀ a ∈ l, (f a).length = k) : (l.flatMap f).length = k * l.length := by
  induction l with
  | nil => simp
  | cons a t ih =>
    simp only [List.flatMap_cons, List.length_append, List.length_cons]
    rw [h a (by simp), ih (fun b hb => h b (by simp [hb]))]
    ring

theorem validEthAddr_parts {a : List Char} (h : validEthAddr a = true) :
    ∃ body, a = '0' :: 'x' :: body ∧ body.length = 40 ∧ body.all isHexDigit := by
  simp only [validEthAddr, decide_eq_true_eq] at h
  obtain ⟨hlen, hpre, hhex⟩ := h
  have := (@List.isPrefixOf_iff_prefix Char _ _ ['0', 'x'] a).mp hpre
  obtain ⟨t, ht⟩ := this
  refine ⟨t, ?_, ?_, ?_⟩
  · simpa using ht.symm
  · have : a.length = 2 + t.length := by rw [← ht]; simp; omega
    omega
  · have : a.drop 2 = t := by rw [← ht]; simp
    rw [← this]
    exact hhex

theorem offset_lt_word {n i : Nat} (hn : n ≤ 2 ^ 32) (hi : i < n) :
    32 * n + 192 * i < 16 ^ 64 := by
  have e1 : (2 : ℕ) ^ 32 = 4294967296 := by norm_num
  have e2 : (16 : ℕ) ^ 64 =
      115792089237316195423570985008687907853269984665640564039457584007913129639936 := by
    norm_num
  omega

theorem len_lt_word {n : Nat} (hn : n ≤ 2 ^ 32) : n < 16 ^ 64 := by
  have e1 : (2 : ℕ) ^ 32 = 4294967296 := by norm_num
  have e2 : (16 : ℕ) ^ 64 =
      115792089237316195423570985008687907853269984665640564039457584007913129639936 := by
    norm_num
  omega

theorem encodeReverseResolve_drop2 {a : List Char} (h : validEthAddr a = true) :
    (encodeReverseResolve a).drop 2 = innerCalldata a := by
  obtain ⟨body, hb, hlen, _⟩ := validEthAddr_parts h
  subst hb
  have hlow : lowerStr ('0' :: 'x' :: body) = '0' :: 'x' :: lowerStr body := by
    simp [lowerStr, toLowerJs]
  have hrepl : replaceFirst ['0', 'x'] ('0' :: 'x' :: lowerStr body) = lowerStr body := by
    rw [replaceFirst, if_pos (by simp [List.isPrefixOf])]
    simp
  have hpadlen : (lowerStr body).length = 40 := by simp [lowerStr, hlen]
  have hpad : pad32 (lowerStr body) = List.replicate 24 '0' ++ lowerStr body := by
    rw [pad32, hpadlen]
    norm_num [W]
  have hsel : REVERSE_RESOLVE_SELECTOR = '0' :: 'x' :: "9af8b7aa".toList := by decide
  rw [encodeReverseResolve, hlow, hrepl, hpad, hsel]
  simp [innerCalldata, lowerStr]

theorem innerCalldata_length {a : List Char} (h : validEthAddr a = true) :
    (innerCalldata a).length = 72 := by
  obtain ⟨body, hb, hlen, _⟩ := validEthAddr_parts h
  subst hb
  simp [innerCalldata, lowerStr, hlen]

theorem claimElemWords_of_valid {a : List Char} (h : validEthAddr a = true) :
    [pad32 (replaceFirst ['0', 'x'] (lowerStr WNS_CONTRACT)), pad32 ['1'],
        pad32 ['6', '0'], pad32 ['2', '4'],
        ((encodeReverseResolve a).drop 2).take W,
        padEnd64 (((encodeReverseResolve a).drop 2).drop W)] =
      claimElemWords a := by
  have hcd := encodeReverseResolve_drop2 h
  have hil := innerCalldata_length h
  simp only [hcd, claimElemWords]
  have h1 : pad32 (replaceFirst ['0', 'x'] (lowerStr WNS_CONTRACT)) = wnsTargetWord := by
    decide
  have h2 : pad32 ['1'] = hexWord64 1 := by decide
  have h3 : pad32 ['6', '0'] = hexWord64 0x60 := by decide
  have h4 : pad32 ['2', '4'] = hexWord64 0x24 := by decide
  have htake : (innerCalldata a ++ List.replicate 56 '0').take 64 = (innerCalldata a).take W := by
    rw [List.take_append_eq_append_take]
    simp [hil, W]
  have hdrop : (innerCalldata a ++ List.replicate 56 '0').drop 64 =
      padEnd64 ((innerCalldata a).drop W) := by
    have h8 : ((innerCalldata a).drop W).length = 8 := by
      simp [List.length_drop, hil, W]
    rw [List.drop_append_eq_append_drop, hil, padEnd64, h8]
    norm_num [W]
  rw [h1, h2, h3, h4, htake, hdrop]

theorem encodeMulticall_eq_claimWords (addresses : List (List Char))
    (hv : ∀ a ∈ addresses, validEthAddr a = true) :
    encodeMulticall addresses = AGGREGATE3_SELECTOR ++ (claimWords addresses).flatten := by
  simp only [encodeMulticall, claimWords]
  apply congrArg
  have hhead : pad32 ['2', '0'] = hexWord64 0x20 := by decide
  have hmap : (List.range addresses.length).map
      (fun i => pad32 (natToHex (addresses.length * 32 + i * 6 * 32))) =
      (List.range addresses.length).map
        (fun i => hexWord64 (32 * addresses.length + 192 * i)) := by
    apply List.map_congr_left
    intro i _
    rw [hexWord64]
    congr 1
    ring
  have hflat : addresses.flatMap (fun addr =>
      let cd := (encodeReverseResolve addr).drop 2
      [pad32 (replaceFirst ['0', 'x'] (lowerStr WNS_CONTRACT)), pad32 ['1'],
        pad32 ['6', '0'], pad32 ['2', '4'], cd.take W, padEnd64 (cd.drop W)]) =
      addresses.flatMap claimElemWords :=
    flatMap_congr' (fun a ha => claimElemWords_of_valid (hv a ha))
  rw [hhead, hmap, ← hflat]
  simp [hexWord64]

theorem claimWords_word_length (addresses : List (List Char))
    (hv : ∀ a ∈ addresses, validEthAddr a = true)
    (hn : addresses.length ≤ 2 ^ 32) :
    ∀ w ∈ claimWords addresses, w.length = 64 := by
  intro w hw
  simp only [claimWords, List.mem_cons, List.mem_append, List.mem_map,
    List.mem_flatMap, List.mem_range] at hw
  rcases hw with h | h | ⟨i, hi, h⟩ | ⟨a, ha, h⟩
  · subst h; decide
  · subst h; exact hexWord64_length (len_lt_word hn)
  · subst h; exact hexWord64_length (offset_lt_word hn hi)
  · have hlen : (innerCalldata a ++ List.replicate 56 '0').length = 128 := by
      simp [innerCalldata_length (hv a ha)]
    simp only [claimElemWords, List.mem_cons, List.mem_singleton] at h
    rcases h with h | h | h | h | h | h | h
    · subst h; decide
    · subst h; decide
    · subst h; decide
    · subst h; decide
    · subst h; rw [List.length_take, hlen]; norm_num
    · subst h; rw [List.length_drop, hlen]
    · exact absurd h (by simp)

theorem claimWords_count (addresses : List (List Char)) :
    (claimWords addresses).length = 2 + 7 * addresses.length := by
  simp only [claimWords, List.length_cons, List.length_append, List.length_map,
    List.length_range]
  rw [length_flatMap_const (f := claimElemWords) (k := 6) (fun a _ => rfl)]
  ring

/-- **C1**. For every non-empty list of `N` valid addresses, `encodeMulticall`
returns the outer 4-byte selector followed by exactly these 32-byte words in
order: a word with value `0x20` (offset to the array), a word with value `N`
(array length), `N` offset words whose `i`-th value is `32*N + 192*i` bytes,
then for each input address a 6-word tuple: the WNS target contract address
left-padded to 32 bytes, the value `1` (allowFailure), the value `0x60`
(offset to the bytes data), the value `0x24` (calldata length 36), and the
36-byte inner calldata (inner selector followed by the lowercased, `0x`-less
address left-padded to 32 bytes) right-zero-padded to fill two words.
The `hexVal` conjuncts read the numeric words back to their claimed values.
(The bound `N ≤ 2^32` reflects the JavaScript array-length limit.) -/
theorem C1_encodeMulticall_layout (addresses : List (List Char))
    (hv : ∀ a ∈ addresses, validEthAddr a = true)
    (hne : addresses ≠ []) (hn : addresses.length ≤ 2 ^ 32) :
    encodeMulticall addresses = AGGREGATE3_SELECTOR ++ (claimWords addresses).flatten ∧
    (∀ w ∈ claimWords addresses, w.length = 64) ∧
    (claimWords addresses).length = 2 + 7 * addresses.length ∧
    hexVal (hexWord64 0x20) = 0x20 ∧
    hexVal (hexWord64 addresses.length) = addresses.length ∧
    hexVal (hexWord64 1) = 1 ∧ hexVal (hexWord64 0x60) = 0x60 ∧
    hexVal (hexWord64 0x24) = 0x24 ∧
    ∀ i < addresses.length,
      hexVal (hexWord64 (32 * addresses.length + 192 * i)) =
        32 * addresses.length + 192 * i :=
  ⟨encodeMulticall_eq_claimWords addresses hv,
    claimWords_word_length addresses hv hn,
    claimWords_count addresses,
    hexVal_hexWord64 _, hexVal_hexWord64 _, hexVal_hexWord64 _,
    hexVal_hexWord64 _, hexVal_hexWord64 _, fun i _ => hexVal_hexWord64 _⟩

/-- Witness for C1 at a concrete two-address input. -/
theorem C1_encodeMulticall_layout_witness :
    encodeMulticall ["0xAAaaaaAAaaaaaaaaaaaaaaaaaaaaaaaaaaaaa001".toList,
        "0xbbbbbbbbbbbbbbbbbbbbbbbbbbbbbbbbbbbbb002".toList] =
      AGGREGATE3_SELECTOR ++
        (claimWords ["0xAAaaaaAAaaaaaaaaaaaaaaaaaaaaaaaaaaaaa001".toList,
          "0xbbbbbbbbbbbbbbbbbbbbbbbbbbbbbbbbbbbbb002".toList]).flatten :=
  (C1_encodeMulticall_layout
    ["0xAAaaaaAAaaaaaaaaaaaaaaaaaaaaaaaaaaaaa001".toList,
      "0xbbbbbbbbbbbbbbbbbbbbbbbbbbbbbbbbbbbbb002".toList]
    (by decide) (by decide) (by norm_num)).1

/-! ## Name sanitization (`sanitizeName`, C3) -/

/-- `const MAX_NAME_LENGTH = 64`. -/
def MAX_NAME_LENGTH : Nat := 64

/-- The denylisted character class of `sanitizeName`:
`[\u0000-\u001F\u007F-\u009F​-‏‪-‮⁠-⁩﻿]`. -/
def denylisted (c : Char) : Bool :=
  c.toNat ≤ 0x1F ∨ (0x7F ≤ c.toNat ∧ c.toNat ≤ 0x9F) ∨
    (0x200B ≤ c.toNat ∧ c.toNat ≤ 0x200F) ∨ (0x202A ≤ c.toNat ∧ c.toNat ≤ 0x202E) ∨
    (0x2060 ≤ c.toNat ∧ c.toNat ≤ 0x2069) ∨ c.toNat = 0xFEFF

/-- `sanitizeName(name)`: strip denylisted characters, return `null` when
nothing remains, truncate to `MAX_NAME_LENGTH` otherwise. -/
def sanitizeName (name : List Char) : Option (List Char) :=
  let cleaned := name.filter (fun c => !denylisted c)
  if cleaned = [] then none
  else if MAX_NAME_LENGTH < cleaned.length then some (cleaned.take MAX_NAME_LENGTH)
  else some cleaned

/-- **C3**. `sanitizeName` first removes every denylisted character, returns
`null` when the remainder is empty and otherwise the first 64 characters of
the remainder; a non-null result contains no denylisted character, has at
most 64 characters and is never empty; and the raw name `"ab​cd"`
followed by seventy `'e'`s sanitizes to the 64-character string beginning
`"abcd"`. -/
theorem C3_sanitizeName (s r : List Char) (h : sanitizeName s = some r) :
    sanitizeName s =
      (if s.filter (fun c => !denylisted c) = [] then none
        else some ((s.filter (fun c => !denylisted c)).take 64)) ∧
    (∀ c ∈ r, denylisted c = false) ∧ r.length ≤ 64 ∧ r ≠ [] ∧
    sanitizeName ("ab".toList ++ ['​'] ++ "cd".toList ++ List.replicate 70 'e') =
      some ("abcd".toList ++ List.replicate 60 'e') ∧
    ("abcd".toList ++ List.replicate 60 'e').length = 64 := by
  have hr : (∀ c ∈ r, denylisted c = false) ∧ r.length ≤ 64 ∧ r ≠ [] := by
    simp only [sanitizeName, MAX_NAME_LENGTH] at h
    split at h
    · exact absurd h (by simp)
    · rename_i hcl
      split at h
      · rename_i hgt
        obtain rfl : (s.filter (fun c => !denylisted c)).take 64 = r :=
          Option.some.inj h
        refine ⟨?_, ?_, ?_⟩
        · intro c hc
          have := List.take_subset 64 _ hc
          simpa using (List.mem_filter.mp this).2
        · simp
        · simp only [ne_eq, List.take_eq_nil_iff]
          push_neg
          exact ⟨by omega, hcl⟩
      · rename_i hle
        obtain rfl : s.filter (fun c => !denylisted c) = r := Option.some.inj h
        refine ⟨?_, by omega, hcl⟩
        intro c hc
        simpa using (List.mem_filter.mp hc).2
  refine ⟨?_, hr.1, hr.2.1, hr.2.2, by decide, by decide⟩
  simp only [sanitizeName, MAX_NAME_LENGTH]
  split
  · rfl
  · split
    · rfl
    · rename_i hle
      rw [List.take_of_length_le (by omega)]

/-- Witness for C3 on the concrete input `"ab"`. -/
theorem C3_sanitizeName_witness :
    sanitizeName "ab".toList =
      (if "ab".toList.filter (fun c => !denylisted c) = [] then none
        else some (("ab".toList.filter (fun c => !denylisted c)).take 64)) :=
  (C3_sanitizeName "ab".toList "ab".toList (by decide)).1

/-! ## The `aggregate3` return decoder (`decodeAggregate3`, C2)

JavaScript numbers flowing through the decoder are modelled as `Option Int`:
`none` plays the role of `NaN` (the result of `parseInt` on garbage), and all
integer arithmetic is exact.  `NaN` propagates through arithmetic and is
treated as `0` by `String.prototype.slice`, exactly as in JavaScript. -/

/-- `NaN`-propagating addition. -/
def jadd : Option Int → Option Int → Option Int
  | some a, some b => some (a + b)
  | _, _ => none

/-- `NaN`-propagating multiplication by an integer constant. -/
def jmulNat (a : Option Int) (k : Nat) : Option Int :=
  match a with
  | some a => some (a * k)
  | none => none

/-- JavaScript whitespace skipped by `parseInt` (WhiteSpace and
LineTerminator code points). -/
def isJsSpace (c : Char) : Bool :=
  c.toNat = 0x09 ∨ c.toNat = 0x0A ∨ c.toNat = 0x0B ∨ c.toNat = 0x0C ∨
    c.toNat = 0x0D ∨ c.toNat = 0x20 ∨ c.toNat = 0xA0 ∨ c.toNat = 0x1680 ∨
    (0x2000 ≤ c.toNat ∧ c.toNat ≤ 0x200A) ∨ c.toNat = 0x2028 ∨
    c.toNat = 0x2029 ∨ c.toNat = 0x202F ∨ c.toNat = 0x205F ∨
    c.toNat = 0x3000 ∨ c.toNat = 0xFEFF

/-- The unsigned digit-run part of `parseInt(s, 16)`: strip an optional
`0x`/`0X` marker, then read the longest leading run of hex digits; `NaN`
when there is none. -/
def parseHexRun (s : List Char) : Option Int :=
  let s' := if ['0', 'x'].isPrefixOf s ∨ ['0', 'X'].isPrefixOf s then s.drop 2 else s
  let ds := s'.takeWhile isHexDigit
  if ds = [] then none else some (hexVal ds)

/-- JavaScript `parseInt(s, 16)` (exact-integer model): skip whitespace, read
an optional sign, then the hex digit run. -/
def jsParseIntHex (s : List Char) : Option Int :=
  match s.dropWhile isJsSpace with
  | '-' :: r => (parseHexRun r).map (fun v => -v)
  | '+' :: r => parseHexRun r
  | r => parseHexRun r

/-- `String.prototype.slice(a, b)`: relative indices clamp to `[0, length]`,
negative values count from the end, `NaN` behaves as `0`. -/
def jsSlice (data : List Char) (a b : Option Int) : List Char :=
  let len : Int := data.length
  let norm : Option Int → Nat := fun o =>
    match o with
    | none => 0
    | some v => if v < 0 then (max (len + v) 0).toNat else (min v len).toNat
  (data.drop (norm a)).take (norm b - norm a)

/-- `word(pos)` of the decoder: `data.slice(pos, pos + W)`. -/
def jword (data : List Char) (pos : Option Int) : List Char :=
  jsSlice data pos (jadd pos (some 64))

/-- `uint(pos)` of the decoder: `parseInt(word(pos), 16)`. -/
def juint (data : List Char) (pos : Option Int) : Option Int :=
  jsParseIntHex (jword data pos)

/-- JavaScript `ToUint8` as performed by a `Uint8Array` store: `NaN` becomes
`0`, other integers are taken modulo 256. -/
def toUint8 : Option Int → Nat
  | none => 0
  | some v => (v % 256).toNat

/-- `hexToBytes(hex)`: `new Uint8Array(hex.length / 2)` passes the fractional
length through `ToIndex`, which truncates (ES2017+), so the array holds
`⌊length / 2⌋` bytes, one per complete character pair, each parsed with
`parseInt(·, 16)` and stored through `ToUint8`. -/
def hexToBytes (hex : List Char) : List Nat :=
  (List.range (hex.length / 2)).map
    (fun i => toUint8 (jsParseIntHex ((hex.drop (2 * i)).take 2)))

/-- Is a byte a UTF-8 continuation byte (`0x80–0xBF`)? -/
def isCont (b : Nat) : Bool := 0x80 ≤ b ∧ b ≤ 0xBF

/-- Strict (fatal) UTF-8 decoding as performed by
`new TextDecoder('utf-8', { fatal: true })`: rejects truncated sequences,
overlong encodings, surrogates and code points above `U+10FFFF`. -/
def utf8Decode : List Nat → Option (List Char)
  | [] => some []
  | b :: rest =>
    if b < 0x80 then (utf8Decode rest).map (fun cs => Char.ofNat b :: cs)
    else if 0xC2 ≤ b ∧ b ≤ 0xDF then
      match rest with
      | b1 :: rest' =>
        if isCont b1 then
          (utf8Decode rest').map (fun cs => Char.ofNat ((b - 0xC0) * 64 + (b1 - 0x80)) :: cs)
        else none
      | _ => none
    else if 0xE0 ≤ b ∧ b ≤ 0xEF then
      match rest with
      | b1 :: b2 :: rest' =>
        let lo1 : Nat := if b = 0xE0 then 0xA0 else 0x80
        let hi1 : Nat := if b = 0xED then 0x9F else 0xBF
        if lo1 ≤ b1 ∧ b1 ≤ hi1 ∧ isCont b2 then
          (utf8Decode rest').map (fun cs =>
            Char.ofNat ((b - 0xE0) * 4096 + (b1 - 0x80) * 64 + (b2 - 0x80)) :: cs)
        else none
      | _ => none
    else if 0xF0 ≤ b ∧ b ≤ 0xF4 then
      match rest with
      | b1 :: b2 :: b3 :: rest' =>
        let lo1 : Nat := if b = 0xF0 then 0x90 else 0x80
        let hi1 : Nat := if b = 0xF4 then 0x8F else 0xBF
        if lo1 ≤ b1 ∧ b1 ≤ hi1 ∧ isCont b2 ∧ isCont b3 then
          (utf8Decode rest').map (fun cs =>
            Char.ofNat ((b - 0xF0) * 262144 + (b1 - 0x80) * 4096 +
              (b2 - 0x80) * 64 + (b3 - 0x80)) :: cs)
        else none
      | _ => none
    else none

/-- `hex.startsWith('0x') ? hex.slice(2) : hex`. -/
def dataOf (hex : List Char) : List Char :=
  if ['0', 'x'].isPrefixOf hex then hex.drop 2 else hex

/-- Character position of the slot-offset word of slot `i`
(`arrayBase + i * W` with `arrayBase = 2 * W`). -/
def slotOffsetPos (i : Nat) : Option Int := some (128 + (i : Int) * 64)

/-- `base` of slot `i`: `arrayBase + uint(arrayBase + i*W) * 2`. -/
def slotBase (data : List Char) (i : Nat) : Option Int :=
  jadd (some 128) (jmulNat (juint data (slotOffsetPos i)) 2)

/-- `bytesBase` of slot `i`: `base + uint(base + W) * 2`. -/
def bytesBase (data : List Char) (i : Nat) : Option Int :=
  jadd (slotBase data i) (jmulNat (juint data (jadd (slotBase data i) (some 64))) 2)

/-- `rdBase` of slot `i`: `bytesBase + W`. -/
def rdBase (data : List Char) (i : Nat) : Option Int :=
  jadd (bytesBase data i) (some 64)

/-- Declared string length of slot `i`: `uint(rdBase + W)`. -/
def strLenOf (data : List Char) (i : Nat) : Option Int :=
  juint data (jadd (rdBase data i) (some 64))

/-- The sliced string hex of slot `i`:
`data.slice(rdBase + 2*W, rdBase + 2*W + strLen*2)`. -/
def strHexOf (data : List Char) (i : Nat) : List Char :=
  jsSlice data (jadd (rdBase data i) (some 128))
    (jadd (jadd (rdBase data i) (some 128)) (jmulNat (strLenOf data i) 2))

/-- Decoding of one result slot of the `aggregate3` return payload; the body
of the `for` loop of `decodeAggregate3`, which depends only on `data` and
the slot index.  An odd-length string slice is not an error: `hexToBytes`
decodes its `⌊length / 2⌋` complete byte pairs, so the only failure the
surrounding `try` converts to a `null` slot is a `TextDecoder` one. -/
def decodeSlot (data : List Char) (i : Nat) : Option (List Char) :=
  if juint data (slotBase data i) ≠ some 1 then none
  else
    let bl := juint data (bytesBase data i)
    if bl = none ∨ bl = some 0 then none
    else
      let sl := strLenOf data i
      if sl = none ∨ sl = some 0 then none
      else
        match utf8Decode (hexToBytes (strHexOf data i)) with
        | none => none
        | some raw => sanitizeName raw

/-- `decodeAggregate3(hex)`.  A negative parsed array length makes the
source's `for` loop run zero iterations, which `Int.toNat` reproduces. -/
def decodeAggregate3 (hex : List Char) : List (Option (List Char)) :=
  if hex = [] ∨ hex = ['0', 'x'] then []
  else
    let data := dataOf hex
    match juint data (some 64) with
    | none => []
    | some n => if n = 0 then [] else (List.range n.toNat).map (decodeSlot data)

/-- A sample `aggregate3` return payload declaring two result slots: slot 0
with success flag `0`, slot 1 successful with the name `"ab"`. -/
def samplePayload2 : List Char :=
  ("0x0000000000000000000000000000000000000000000000000000000000000020" ++
    "0000000000000000000000000000000000000000000000000000000000000002" ++
    "0000000000000000000000000000000000000000000000000000000000000040" ++
    "0000000000000000000000000000000000000000000000000000000000000060" ++
    "0000000000000000000000000000000000000000000000000000000000000000" ++
    "0000000000000000000000000000000000000000000000000000000000000001" ++
    "0000000000000000000000000000000000000000000000000000000000000040" ++
    "0000000000000000000000000000000000000000000000000000000000000060" ++
    "0000000000000000000000000000000000000000000000000000000000000020" ++
    "0000000000000000000000000000000000000000000000000000000000000002" ++
    "6162000000000000000000000000000000000000000000000000000000000000").toList

/-- **C2**. `decodeAggregate3` is total (the model is a Lean function, so it
returns a list on every input and cannot throw): an empty (`""`, standing
also for a missing argument) or `"0x"` payload and a payload whose declared
array length cannot be parsed yield the empty list; when the declared length
parses to `n ≠ 0` the result is one independently decoded entry per declared
slot (so decoding continues for all subsequent slots whatever an individual
slot does); and a slot whose success flag is not `1`, whose returned-bytes
length is zero, whose declared string length is zero, or whose string bytes
are not valid UTF-8, decodes to `none`. -/
theorem C2_decodeAggregate3_error_handling :
    (decodeAggregate3 [] = [] ∧ decodeAggregate3 ['0', 'x'] = []) ∧
    (∀ hex, juint (dataOf hex) (some 64) = none → decodeAggregate3 hex = []) ∧
    (∀ hex n, juint (dataOf hex) (some 64) = some n → n ≠ 0 →
      decodeAggregate3 hex = (List.range n.toNat).map (decodeSlot (dataOf hex))) ∧
    (∀ data i, juint data (slotBase data i) ≠ some 1 → decodeSlot data i = none) ∧
    (∀ data i, juint data (bytesBase data i) = some 0 → decodeSlot data i = none) ∧
    (∀ data i, strLenOf data i = some 0 → decodeSlot data i = none) ∧
    (∀ data i, utf8Decode (hexToBytes (strHexOf data i)) = none →
      decodeSlot data i = none) := by
  refine ⟨⟨by decide, by decide⟩, ?_, ?_, ?_, ?_, ?_, ?_⟩
  · intro hex h
    simp only [decodeAggregate3, h]
    split <;> rfl
  · intro hex n h hn
    have hguard : ¬(hex = [] ∨ hex = ['0', 'x']) := by
      rintro (rfl | rfl)
      · have hnone : juint (dataOf ([] : List Char)) (some 64) = none := by decide
        rw [hnone] at h
        exact Option.noConfusion h
      · have hnone : juint (dataOf ['0', 'x']) (some 64) = none := by decide
        rw [hnone] at h
        exact Option.noConfusion h
    simp only [decodeAggregate3, if_neg hguard, h, if_neg hn]
  · intro data i h
    simp only [decodeSlot, if_pos h]
  · intro data i h
    simp only [decodeSlot]
    split
    · rfl
    · rw [if_pos (Or.inr h)]
  · intro data i h
    simp only [decodeSlot]
    split
    · rfl
    · split
      · rfl
      · rw [if_pos (Or.inr h)]
  · intro data i h
    simp only [decodeSlot]
    split
    · rfl
    · split
      · rfl
      · split
        · rfl
        · rw [h]

set_option maxRecDepth 40000 in
/-- Witness for C2: on the two-slot sample payload the declared length parses
to `2` and the decoder maps the slot decoder over both slots. -/
theorem C2_decodeAggregate3_error_handling_witness :
    decodeAggregate3 samplePayload2 =
      (List.range (Int.toNat 2)).map (decodeSlot (dataOf samplePayload2)) :=
  C2_decodeAggregate3_error_handling.2.2.1 samplePayload2 2 (by decide) (by decide)

/-! ## Address extraction and subject selection (`content.js`)

The default patterns `DEFAULT_ETH_RE` and `DEFAULT_ABBR_RE` are fixed regular
expressions whose character classes (hex digits, the separator class `[….]`
and the `\b` word/non-word distinction) are pairwise disjoint where they
meet, so the backtracking regex search reduces to the deterministic
maximal-run scans implemented below.  The browser's `new URL` parser and the
regex engine running *user-configured* patterns are external collaborators
and enter as explicit inputs. -/

/-- The separator class `[….]{2,3}` of the default abbreviated pattern. -/
def sepChar (c : Char) : Bool := c = '…' ∨ c = '.'

/-- Attempt of `DEFAULT_ABBR_RE` at the current position (the position
itself must already satisfy the leading `\b`).  Greedy `{4,}` hex runs and
the `{2,3}` separator run cannot profitably backtrack: a shortened hex run
leaves a hex character where a separator or a non-word boundary is required,
and a shortened separator run leaves a separator where a hex digit is
required.  Hence the match succeeds exactly on maximal runs. -/
def abbrHere (l : List Char) : Option (List Char × List Char) :=
  match l with
  | '0' :: 'x' :: rest =>
    let pre := rest.takeWhile isHexDigit
    if pre.length < 4 then none
    else
      let rest2 := rest.drop pre.length
      let seps := rest2.takeWhile sepChar
      if seps.length < 2 ∨ 3 < seps.length then none
      else
        let rest3 := rest2.drop seps.length
        let suf := rest3.takeWhile isHexDigit
        if suf.length < 4 then none
        else
          match rest3.drop suf.length with
          | [] => some (pre, suf)
          | c :: _ => if isWordChar c then none else some (pre, suf)
  | _ => none

/-- Leftmost-position scan of `DEFAULT_ABBR_RE.exec`: try every start
position from the left, threading the previous character for the `\b`
check. -/
def execAbbrGo : Option Char → List Char → Option (List Char × List Char)
  | _, [] => none
  | prev, c :: rest =>
    let bOk : Bool := match prev with | none => true | some p => !isWordChar p
    match (if bOk then abbrHere (c :: rest) else none) with
    | some r => some r
    | none => execAbbrGo (some c) rest

/-- `ABBR_RE.exec(displayText)` for the default pattern, returning the two
capture groups (prefix hex run, suffix hex run). -/
def execAbbr (s : List Char) : Option (List Char × List Char) := execAbbrGo none s

/-- `matchAbbrToAddresses(displayText, addresses)`: first address whose hex
body starts with the (lowercased) captured prefix and ends with the
captured suffix. -/
def matchAbbrToAddresses (displayText : List Char) (addresses : List (List Char)) :
    Option (List Char) :=
  match execAbbr displayText with
  | none => none
  | some (p, s) =>
    addresses.find? (fun addr =>
      (lowerStr p).isPrefixOf (addr.drop 2) && (lowerStr s).isSuffixOf (addr.drop 2))

/-- Match of `DEFAULT_ETH_RE` (`\b0x[0-9a-fA-F]{40}\b`) at the current
position: the `{40}` quantifier is exact, so only the trailing boundary needs
checking after 40 hex digits. -/
def ethHere (l : List Char) : Bool :=
  match l with
  | '0' :: 'x' :: rest =>
    ((rest.take 40).length = 40 && (rest.take 40).all isHexDigit) &&
      (match rest.drop 40 with
        | [] => true
        | c :: _ => !isWordChar c)
  | _ => false

/-- Global scan of `DEFAULT_ETH_RE` as performed by the `exec` loop of
`allAddressesInHref`: successive non-overlapping leftmost matches, each
lowercased; after a match the scan resumes at its end.  `fuel` only drives
termination (each step consumes at least one character) and is always ample
at the call site. -/
def ethScanGoAux (fuel : Nat) (prev : Option Char) (l : List Char) :
    List (List Char) :=
  match fuel with
  | 0 => []
  | fuel + 1 =>
    match l with
    | [] => []
    | c :: rest =>
      let bOk : Bool := match prev with | none => true | some p => !isWordChar p
      if bOk && ethHere (c :: rest) then
        lowerStr ((c :: rest).take 42) ::
          ethScanGoAux fuel (some (((c :: rest).take 42).getLastD '0'))
            ((c :: rest).drop 42)
      else ethScanGoAux fuel (some c) rest

/-- `allAddressesInHref(href)`: every full address in the URL string, in
order, lowercased (`!href` guard included). -/
def allAddressesInHref (href : List Char) : List (List Char) :=
  if href = [] then [] else ethScanGoAux href.length none href

/-- The structured view of a parsed URL used by Tier 2: `url.pathname`,
`url.searchParams` (decoded key/value pairs in order) and `url.hash`.
The WHATWG URL parser itself is a browser built-in; Tier-2 claims take the
parse result (or parse failure, `none`) as input. -/
structure JsURL where
  pathname : List Char
  searchParams : List (List Char × List Char)
  hash : List Char

/-- `String.prototype.indexOf` (first occurrence of `pat`). -/
def indexOfSub (pat : List Char) : List Char → Option Nat
  | [] => if pat.isPrefixOf ([] : List Char) then some 0 else none
  | c :: rest =>
    if pat.isPrefixOf (c :: rest) then some 0
    else (indexOfSub pat rest).map (· + 1)

/-- The Tier-2 score of one candidate address, mirroring the path, query and
hash signals of `pickSubjectAddress`. -/
def scoreAddr (u : JsURL) (addr : List Char) : Int :=
  let pathLower := lowerStr u.pathname
  let pathScore : Int :=
    match indexOfSub addr pathLower with
    | some idx =>
      let before := pathLower.take idx
      (if "/address/".toList.isSuffixOf before ∨ "/holder/".toList.isSuffixOf before
        then 10 else 0) +
      (if "/token/".toList.isSuffixOf before ∨ "/contract/".toList.isSuffixOf before
        then -5 else 0)
    | none => 0
  let queryScore : Int := u.searchParams.foldl
    (fun sc kv =>
      if lowerStr kv.2 ≠ addr then sc
      else sc +
        (if lowerStr kv.1 = "a".toList ∨ lowerStr kv.1 = "holder".toList ∨
            lowerStr kv.1 = "address".toList then 10 else 0) +
        (if lowerStr kv.1 = "token".toList ∨ lowerStr kv.1 = "contract".toList
          then -5 else 0)) 0
  let hashStr := lowerStr u.hash
  let hashScore : Int :=
    if (indexOfSub addr hashStr).isSome then
      (if (indexOfSub ("holder=".toList ++ addr) hashStr).isSome then 10 else 0) +
      (if (indexOfSub ("address=".toList ++ addr) hashStr).isSome then 10 else 0)
    else 0
  pathScore + queryScore + hashScore

/-- The Tier-2 selection loop: running best (initialized to the first
candidate) updated on strictly larger scores. -/
def tier2Best (u : JsURL) (addresses : List (List Char)) : List Char × Int :=
  addresses.foldl
    (fun best addr =>
      let s := scoreAddr u addr
      if best.2 < s then (addr, s) else best)
    (addresses.headD [], scoreAddr u (addresses.headD []))

/-- `pickSubjectAddress(href, addresses, displayText)`, with the URL parse
outcome of `href` passed explicitly (`none` models a `new URL` failure). -/
def pickSubjectAddress (url? : Option JsURL) (addresses : List (List Char))
    (displayText : List Char) : List Char :=
  if addresses.length = 1 then addresses.headD []
  else
    match matchAbbrToAddresses displayText addresses with
    | some hit => hit
    | none =>
      match (if validEthAddr displayText then
          addresses.find? (fun a => a == lowerStr displayText) else none) with
      | some a => a
      | none =>
        match url? with
        | some url =>
          let best := tier2Best url addresses
          if best.2 ≠ 0 then best.1 else addresses.getLastD []
        | none => addresses.getLastD []

/-! ### Selection lemmas (C10, C5, C4) -/

theorem headD_mem {α : Type} {l : List α} {d : α} (h : l ≠ []) : l.headD d ∈ l := by
  cases l with
  | nil => exact absurd rfl h
  | cons a t => simp

theorem getLastD_mem {α : Type} {l : List α} {d : α} (h : l ≠ []) : l.getLastD d ∈ l := by
  cases l with
  | nil => exact absurd rfl h
  | cons a t =>
    rw [List.getLastD_eq_getLast?, List.getLast?_eq_getLast (a :: t) (by simp)]
    exact List.getLast_mem _

theorem matchAbbrToAddresses_mem {d a : List Char} {addresses : List (List Char)}
    (h : matchAbbrToAddresses d addresses = some a) : a ∈ addresses := by
  rw [matchAbbrToAddresses] at h
  split at h
  · exact absurd h (by simp)
  · exact List.mem_of_find?_eq_some h

theorem tier2_fold_mem (u : JsURL) :
    ∀ (l : List (List Char)) (b : List Char × Int),
      (l.foldl (fun best addr =>
        let s := scoreAddr u addr
        if best.2 < s then (addr, s) else best) b).1 = b.1 ∨
      (l.foldl (fun best addr =>
        let s := scoreAddr u addr
        if best.2 < s then (addr, s) else best) b).1 ∈ l := by
  intro l
  induction l with
  | nil => intro b; left; rfl
  | cons a t ih =>
    intro b
    rw [List.foldl_cons]
    rcases ih (if b.2 < scoreAddr u a then (a, scoreAddr u a) else b) with h | h
    · rw [h]
      split
      · right; simp
      · left; rfl
    · right; simp [h]

theorem tier2Best_mem {u : JsURL} {addresses : List (List Char)} (h : addresses ≠ []) :
    (tier2Best u addresses).1 ∈ addresses := by
  rw [tier2Best]
  rcases tier2_fold_mem u addresses (addresses.headD [], scoreAddr u (addresses.headD []))
    with h1 | h1
  · rw [h1]; exact headD_mem h
  · exact h1

/-- **C10**. For every candidate list, href parse outcome and display label,
`pickSubjectAddress` on a non-empty list returns an element of the list,
whichever of the three tiers produces the result. -/
theorem C10_pickSubjectAddress_mem (url? : Option JsURL) (addresses : List (List Char))
    (displayText : List Char) (hne : addresses ≠ []) :
    pickSubjectAddress url? addresses displayText ∈ addresses := by
  rw [pickSubjectAddress.eq_def]
  split
  · exact headD_mem hne
  · split
    · rename_i hit hhit
      exact matchAbbrToAddresses_mem hhit
    · split
      · rename_i a ha
        split at ha
        · exact List.mem_of_find?_eq_some ha
        · exact absurd ha (by simp)
      · split
        · dsimp only
          split
          · exact tier2Best_mem hne
          · exact getLastD_mem hne
        · exact getLastD_mem hne

/-- Witness for C10 at a concrete two-candidate input. -/
theorem C10_pickSubjectAddress_mem_witness :
    pickSubjectAddress none ["0xaa".toList, "0xbb".toList] "t".toList ∈
      ["0xaa".toList, "0xbb".toList] :=
  C10_pickSubjectAddress_mem none ["0xaa".toList, "0xbb".toList] "t".toList (by decide)

/-- **C5**. When the abbreviated pattern matches the display label and some
candidate's 40-hex body starts with the captured prefix and ends with the
captured suffix (captures lowercased, candidates canonically lowercase so the
comparison is case-insensitive), `pickSubjectAddress` returns the first such
candidate in list order, for every URL parse outcome — so regardless of what
Tier-2 scoring would choose; and a singleton candidate list is returned
immediately, likewise independent of any scoring input. -/
theorem C5_tier1_display_precedence (url? : Option JsURL)
    (addresses : List (List Char)) (displayText p s a : List Char)
    (hex : execAbbr displayText = some (p, s))
    (hfind : addresses.find? (fun addr =>
        (lowerStr p).isPrefixOf (addr.drop 2) &&
          (lowerStr s).isSuffixOf (addr.drop 2)) = some a) :
    pickSubjectAddress url? addresses displayText = a ∧
    ∀ (u : Option JsURL) (b d : List Char), pickSubjectAddress u [b] d = b := by
  have habbr : matchAbbrToAddresses displayText addresses = some a := by
    rw [matchAbbrToAddresses, hex]
    exact hfind
  constructor
  · by_cases h1 : addresses.length = 1
    · obtain ⟨x, rfl⟩ : ∃ x, addresses = [x] := by
        cases addresses with
        | nil => simp at h1
        | cons x t =>
          cases t with
          | nil => exact ⟨x, rfl⟩
          | cons y u => simp at h1
      have hax : a = x := by simpa using List.mem_of_find?_eq_some hfind
      subst hax
      simp [pickSubjectAddress]
    · rw [pickSubjectAddress.eq_def, if_neg h1, habbr]
  · intro u b d
    simp [pickSubjectAddress]

theorem find?_of_decomp {α : Type} {p : α → Bool} {l1 l2 : List α} {x : α}
    (hl1 : ∀ a ∈ l1, p a = false) (hx : p x = true) :
    (l1 ++ x :: l2).find? p = some x := by
  induction l1 with
  | nil => simp [List.find?_cons, hx]
  | cons a t ih =>
    rw [List.cons_append, List.find?_cons, hl1 a (by simp)]
    exact ih (fun b hb => hl1 b (by simp [hb]))

/-- Full characterization of the Tier-2 selection fold: the result bounds the
initial score and every scanned score, and it is either the untouched initial
pair or the *first* element attaining its (strictly increased) score. -/
theorem tier2_fold_spec (u : JsURL) :
    ∀ (l : List (List Char)) (b : List Char × Int),
      b.2 ≤ (l.foldl (fun best addr =>
          let s := scoreAddr u addr
          if best.2 < s then (addr, s) else best) b).2 ∧
      (∀ a ∈ l, scoreAddr u a ≤ (l.foldl (fun best addr =>
          let s := scoreAddr u addr
          if best.2 < s then (addr, s) else best) b).2) ∧
      (l.foldl (fun best addr =>
          let s := scoreAddr u addr
          if best.2 < s then (addr, s) else best) b = b ∨
        (b.2 < (l.foldl (fun best addr =>
            let s := scoreAddr u addr
            if best.2 < s then (addr, s) else best) b).2 ∧
          scoreAddr u (l.foldl (fun best addr =>
            let s := scoreAddr u addr
            if best.2 < s then (addr, s) else best) b).1 =
            (l.foldl (fun best addr =>
              let s := scoreAddr u addr
              if best.2 < s then (addr, s) else best) b).2 ∧
          ∃ l1 l2, l = l1 ++ (l.foldl (fun best addr =>
              let s := scoreAddr u addr
              if best.2 < s then (addr, s) else best) b).1 :: l2 ∧
            ∀ a ∈ l1, scoreAddr u a < (l.foldl (fun best addr =>
              let s := scoreAddr u addr
              if best.2 < s then (addr, s) else best) b).2)) := by
  intro l
  induction l with
  | nil => exact fun b => ⟨le_refl _, by simp, Or.inl rfl⟩
  | cons a t ih =>
    intro b
    rw [List.foldl_cons]
    obtain ⟨h1, h2, h3⟩ := ih (if b.2 < scoreAddr u a then (a, scoreAddr u a) else b)
    by_cases hlt : b.2 < scoreAddr u a
    · rw [if_pos hlt] at h1 h2 h3 ⊢
      refine ⟨le_trans (le_of_lt hlt) h1, ?_, ?_⟩
      · intro x hx
        rcases List.mem_cons.mp hx with rfl | hx
        · exact h1
        · exact h2 x hx
      · rcases h3 with h3 | ⟨hblt, hsc, l1, l2, heq, hall⟩
        · rw [h3]
          exact Or.inr ⟨hlt, rfl, [], t, rfl,
            fun x hx => absurd hx (List.not_mem_nil x)⟩
        · refine Or.inr ⟨lt_trans hlt hblt, hsc, a :: l1, l2,
            by conv_lhs => rw [heq]
               rw [List.cons_append], ?_⟩
          intro x hx
          rcases List.mem_cons.mp hx with rfl | hx
          · exact hblt
          · exact hall x hx
    · rw [if_neg hlt] at h1 h2 h3 ⊢
      push_neg at hlt
      refine ⟨h1, ?_, ?_⟩
      · intro x hx
        rcases List.mem_cons.mp hx with rfl | hx
        · exact le_trans hlt h1
        · exact h2 x hx
      · rcases h3 with h3 | ⟨hblt, hsc, l1, l2, heq, hall⟩
        · exact Or.inl h3
        · refine Or.inr ⟨hblt, hsc, a :: l1, l2,
            by conv_lhs => rw [heq]
               rw [List.cons_append], ?_⟩
          intro x hx
          rcases List.mem_cons.mp hx with rfl | hx
          · exact lt_of_le_of_lt hlt hblt
          · exact hall x hx

/-- `tier2Best` computes the maximal score and the first candidate
attaining it. -/
theorem tier2Best_spec (u : JsURL) (addresses : List (List Char))
    (h : addresses ≠ []) :
    (∀ a ∈ addresses, scoreAddr u a ≤ (tier2Best u addresses).2) ∧
    addresses.find? (fun a => scoreAddr u a == (tier2Best u addresses).2) =
      some (tier2Best u addresses).1 := by
  cases addresses with
  | nil => exact absurd rfl h
  | cons x t =>
    obtain ⟨h1, h2, h3⟩ := tier2_fold_spec u (x :: t) (x, scoreAddr u x)
    have hdef : tier2Best u (x :: t) =
        (x :: t).foldl (fun best addr =>
          let s := scoreAddr u addr
          if best.2 < s then (addr, s) else best) (x, scoreAddr u x) := rfl
    rw [← hdef] at h1 h2 h3
    refine ⟨h2, ?_⟩
    rcases h3 with h3 | ⟨hblt, hsc, l1, l2, heq, hall⟩
    · rw [h3]
      simp [List.find?_cons]
    · have hfind := @find?_of_decomp (List Char)
        (fun a => scoreAddr u a == (tier2Best u (x :: t)).2)
        l1 l2 (tier2Best u (x :: t)).1
        (fun a ha => beq_eq_false_iff_ne.mpr (ne_of_lt (hall a ha)))
        (beq_iff_eq.mpr hsc)
      rw [← heq] at hfind
      exact hfind

/-- The two candidate addresses and parsed URL of the Tier-2 tie
counterexample: both appear as favoured query parameters (`a=` and
`holder=`), so both score `10`. -/
def addrC4A : List Char := "0xaaaaaaaaaaaaaaaaaaaaaaaaaaaaaaaaaaaaaaaa".toList

def addrC4B : List Char := "0xbbbbbbbbbbbbbbbbbbbbbbbbbbbbbbbbbbbbbbbb".toList

def urlC4 : JsURL :=
  ⟨"/x".toList, [("a".toList, addrC4A), ("holder".toList, addrC4B)], []⟩

/-- **C4, counterexample**.  Both candidates share the maximal Tier-2 score
`10` and Tier 1 produces no candidate, yet `pickSubjectAddress` returns the
*first* candidate rather than falling through to Tier 3 (the last address),
contradicting the claim that a shared maximal score falls through. -/
theorem C4_counterexample :
    scoreAddr urlC4 addrC4A = 10 ∧ scoreAddr urlC4 addrC4B = 10 ∧
    matchAbbrToAddresses [] [addrC4A, addrC4B] = none ∧
    validEthAddr ([] : List Char) = false ∧
    pickSubjectAddress (some urlC4) [addrC4A, addrC4B] [] = addrC4A ∧
    [addrC4A, addrC4B].getLastD [] = addrC4B ∧ addrC4A ≠ addrC4B := by
  refine ⟨by decide, by decide, by decide, by decide, by decide, by decide, by decide⟩

/-- **C4, amended**.  With two or more candidates, a parsed URL and Tier 1
producing no candidate, `pickSubjectAddress` returns the *first* candidate in
list order attaining the maximal Tier-2 score whenever that maximal score is
nonzero — also when several candidates share it, and also when it is
negative; selection falls through to Tier 3 (the last address) exactly when
the maximal score is zero. -/
theorem C4_amended_tier2_selection (u : JsURL) (addresses : List (List Char))
    (displayText : List Char) (h2 : 2 ≤ addresses.length)
    (habbr : matchAbbrToAddresses displayText addresses = none)
    (hexact : (if validEthAddr displayText then
        addresses.find? (fun a => a == lowerStr displayText) else none) = none) :
    (∀ a ∈ addresses, scoreAddr u a ≤ (tier2Best u addresses).2) ∧
    addresses.find? (fun a => scoreAddr u a == (tier2Best u addresses).2) =
      some (tier2Best u addresses).1 ∧
    pickSubjectAddress (some u) addresses displayText =
      (if (tier2Best u addresses).2 ≠ 0 then (tier2Best u addresses).1
        else addresses.getLastD []) := by
  have hne : addresses ≠ [] := by
    intro h
    rw [h] at h2
    simp at h2
  obtain ⟨hmax, hfirst⟩ := tier2Best_spec u addresses hne
  have hne1 : ¬ addresses.length = 1 := by omega
  refine ⟨hmax, hfirst, ?_⟩
  rw [pickSubjectAddress.eq_def, if_neg hne1, habbr, hexact]

/-- Witness for the amended C4 at a concrete input with a strict maximum. -/
theorem C4_amended_tier2_selection_witness :
    pickSubjectAddress (some ⟨"/x".toList, [("a".toList, addrC4A)], []⟩)
        [addrC4A, addrC4B] [] =
      (if (tier2Best ⟨"/x".toList, [("a".toList, addrC4A)], []⟩
          [addrC4A, addrC4B]).2 ≠ 0 then
        (tier2Best ⟨"/x".toList, [("a".toList, addrC4A)], []⟩
          [addrC4A, addrC4B]).1
      else [addrC4A, addrC4B].getLastD []) :=
  (C4_amended_tier2_selection ⟨"/x".toList, [("a".toList, addrC4A)], []⟩
    [addrC4A, addrC4B] [] (by decide) (by decide) (by decide)).2.2

/-- Witness for C5: display text `"0xaaab..cdd1"` selects the first matching
candidate over the second one. -/
theorem C5_tier1_display_precedence_witness :
    pickSubjectAddress none
      ["0xaaab111111111111111111111111111111111cdd1".toList,
        "0xbbbb222222222222222222222222222222222cdd2".toList]
      "0xaaab..cdd1".toList =
      "0xaaab111111111111111111111111111111111cdd1".toList :=
  (C5_tier1_display_precedence none
    ["0xaaab111111111111111111111111111111111cdd1".toList,
      "0xbbbb222222222222222222222222222222222cdd2".toList]
    "0xaaab..cdd1".toList "aaab".toList "cdd1".toList
    "0xaaab111111111111111111111111111111111cdd1".toList
    (by decide) (by decide)).1

/-! ## Custom href rules and per-anchor extraction (C9) -/

/-- A configured custom href rule, abstracted over the browser regex engine:
applying the rule yields its designated capture group for a given href
(`rule.re.exec(href)?.[rule.group]`), `none` when the pattern does not match
or the group is absent.  An empty capture is falsy in the source's
`captured && VALID_ETH_RE.test(captured)` guard and fails validation here
too, so `some []` and the falsy case coincide. -/
def HrefRule : Type := List Char → Option (List Char)

/-- `matchHrefRules(href)`: first rule in order whose capture is a
syntactically valid full address wins, lowercased. -/
def matchHrefRules : List HrefRule → List Char → Option (List Char)
  | [], _ => none
  | r :: rest, href =>
    match r href with
    | some captured =>
      if validEthAddr captured then some (lowerStr captured)
      else matchHrefRules rest href
    | none => matchHrefRules rest href

/-- The per-anchor extraction pipeline of `collectEthereumLinks`: CUSTOM
rules (only when configured), then PRIMARY full-address extraction with
subject selection, then SECONDARY abbreviated display matching. -/
def extractAnchorAddress (rules : List HrefRule) (url? : Option JsURL)
    (href displayText : List Char) : Option (List Char) :=
  match (if rules.length ≠ 0 then matchHrefRules rules href else none) with
  | some a => some a
  | none =>
    let hrefAddresses := allAddressesInHref href
    if hrefAddresses.length ≠ 0 then
      some (pickSubjectAddress url? hrefAddresses displayText)
    else matchAbbrToAddresses displayText (allAddressesInHref href)

/-- A configured rule whose pattern does not match the counterexample href
(`exec` returns `null`, so no capture). -/
def ruleC9 : HrefRule := fun _ => none

/-- The counterexample href: contains a full address matched by the default
pattern. -/
def hrefC9 : List Char :=
  "https://x/a/0xcccccccccccccccccccccccccccccccccccccccc".toList

/-- **C9, counterexample**.  One custom rule is configured and yields no
valid capture for the href, yet extraction does *not* produce `none`: the
default full-address pattern is still applied and returns the address found
in the href, contradicting the claim that custom rules determine the result
solely and that a rule miss yields `none`. -/
theorem C9_counterexample :
    [ruleC9].length ≠ 0 ∧
    matchHrefRules [ruleC9] hrefC9 = none ∧
    extractAnchorAddress [ruleC9] none hrefC9 [] =
      some "0xcccccccccccccccccccccccccccccccccccccccc".toList := by
  refine ⟨by decide, rfl, by decide⟩

/-- **C9, amended**.  When at least one custom rule is configured: if some
rule produces a syntactically valid full-address capture, the first such
rule in order determines the result (returned lowercased) and the default
pattern is not consulted; but when no rule's capture is a valid full
address, extraction *falls back* to the default full-address pattern (and
then to the abbreviated display match) instead of returning `none`. -/
theorem C9_amended_rule_precedence_with_fallback :
    (∀ (rules : List HrefRule) (url? : Option JsURL) (href displayText a : List Char),
      rules ≠ [] → matchHrefRules rules href = some a →
      extractAnchorAddress rules url? href displayText = some a) ∧
    (∀ (rules : List HrefRule) (url? : Option JsURL) (href displayText : List Char),
      matchHrefRules rules href = none →
      extractAnchorAddress rules url? href displayText =
        extractAnchorAddress [] url? href displayText) ∧
    (∀ (r : HrefRule) (rules : List HrefRule) (href captured : List Char),
      r href = some captured → validEthAddr captured = true →
      matchHrefRules (r :: rules) href = some (lowerStr captured)) ∧
    (∀ (r : HrefRule) (rules : List HrefRule) (href captured : List Char),
      r href = some captured → validEthAddr captured = false →
      matchHrefRules (r :: rules) href = matchHrefRules rules href) ∧
    (∀ (r : HrefRule) (rules : List HrefRule) (href : List Char),
      r href = none →
      matchHrefRules (r :: rules) href = matchHrefRules rules href) := by
  refine ⟨?_, ?_, ?_, ?_, ?_⟩
  · intro rules url? href displayText a hne hm
    have hlen : rules.length ≠ 0 := by
      intro h
      exact hne (List.length_eq_zero.mp h)
    rw [extractAnchorAddress, if_pos hlen, hm]
  · intro rules url? href displayText hm
    simp only [extractAnchorAddress]
    by_cases hlen : rules.length ≠ 0
    · rw [if_pos hlen, hm]
      simp
    · rw [if_neg hlen]
      simp
  · intro r rules href captured hr hv
    simp only [matchHrefRules, hr]
    rw [if_pos hv]
  · intro r rules href captured hr hv
    simp only [matchHrefRules, hr, hv]
    simp
  · intro r rules href hr
    simp only [matchHrefRules, hr]

/-- Witness for the amended C9: a rule with a valid capture takes precedence
over the address in the href. -/
theorem C9_amended_rule_precedence_with_fallback_witness :
    extractAnchorAddress [fun _ => some addrC4A] none hrefC9 [] = some addrC4A :=
  C9_amended_rule_precedence_with_fallback.1 [fun _ => some addrC4A] none hrefC9 []
    addrC4A (by simp) (by decide)

/-! ## Resolution cache and batch orchestrator (`resolveAddresses`, C6–C8)

The key-value store (`chrome.storage.local`), the transport (`fetch` +
`res.json()`) and the clock (`Date.now()`) are external collaborators and
enter as explicit inputs: the store as an association list with Map/object
`set` semantics, the transport as an oracle giving the outcome of the `j`-th
RPC of the invocation, the clock as the read-time instant `now` and a
write-time instant `wtime j` per chunk.  Association-list `set` is modelled
as remove-then-prepend, which agrees with `Map.set` / object assignment on
every lookup the engine performs (iteration order of the intermediate maps
is never observed by the engine's results). -/

/-- A cache entry `{ n, t }`: resolved name (or `null`, a negative entry)
and write timestamp. -/
structure CacheEntry where
  n : Option (List Char)
  t : Int
deriving DecidableEq

/-- The backing key-value store. -/
def Store : Type := List (List Char × CacheEntry)

/-- `cacheKey(address)`. -/
def cacheKey (address : List Char) : List Char := "wns_".toList ++ lowerStr address

/-- Store lookup. -/
def storeGet (s : Store) (k : List Char) : Option CacheEntry :=
  (s.find? (fun p => p.1 == k)).map (fun p => p.2)

/-- Store update for one key. -/
def storeSetOne (s : Store) (k : List Char) (v : CacheEntry) : Store :=
  (k, v) :: s.filter (fun p => !(p.1 == k))

/-- `chrome.storage.local.set(toStore)`. -/
def storeSetMany (s : Store) (kvs : List (List Char × CacheEntry)) : Store :=
  kvs.foldl (fun acc kv => storeSetOne acc kv.1 kv.2) s

/-- `Map.get`. -/
def mapGet (m : List (List Char × List Char)) (k : List Char) : Option (List Char) :=
  (m.find? (fun p => p.1 == k)).map (fun p => p.2)

/-- `Map.set`. -/
def mapSet (m : List (List Char × List Char)) (k v : List Char) :
    List (List Char × List Char) :=
  (k, v) :: m.filter (fun p => !(p.1 == k))

/-- The configuration snapshot fields the orchestrator reads. -/
structure ResolveConfig where
  cacheEnabled : Bool
  cacheTtlMs : Int
  maxBatchSize : Nat

/-- Outcome of one transport call: `netFail` models a `fetch` rejection or a
`res.json()` parse failure (both reject the `await`); `rpcOk r` models a
parsed JSON-RPC response whose `result` field is `r` (`none` for a missing
or falsy `result`). -/
inductive TransportOutcome
  | netFail
  | rpcOk (result : Option (List Char))
deriving DecidableEq

/-- `resolveViaRPC(addresses, …)` given the transport outcome: on a parsed
response, decode and collect `addresses[i].toLowerCase() → names[i]` for
every truthy `names[i]`. -/
def resolveViaRPCModel (addresses : List (List Char)) (outcome : TransportOutcome) :
    Except Unit (List (List Char × List Char)) :=
  match outcome with
  | .netFail => .error ()
  | .rpcOk none => .ok []
  | .rpcOk (some resHex) =>
    let names := decodeAggregate3 resHex
    .ok ((List.range addresses.length).foldl
      (fun m i =>
        match addresses.get? i, names.get? i with
        | some addr, some (some nm) =>
          if nm = [] then m else mapSet m (lowerStr addr) nm
        | _, _ => m) [])

/-- One step of the cache-read loop: a fresh entry is a hit (a truthy name
goes into the results, a null name is a negative hit contributing nothing); a
stale or missing entry appends the address to `uncached`. -/
def cacheReadStep (cfg : ResolveConfig) (store : Store) (now : Int)
    (acc : List (List Char × List Char) × List (List Char)) (addr : List Char) :
    List (List Char × List Char) × List (List Char) :=
  match storeGet store (cacheKey addr) with
  | some e =>
    if now - e.t < cfg.cacheTtlMs then
      match e.n with
      | some nm => if nm = [] then acc else (mapSet acc.1 (lowerStr addr) nm, acc.2)
      | none => acc
    else (acc.1, acc.2 ++ [addr])
  | none => (acc.1, acc.2 ++ [addr])

/-- The cache-read phase: results from fresh hits and the list of misses;
with caching disabled every address is a miss. -/
def cacheRead (cfg : ResolveConfig) (store : Store) (now : Int)
    (addresses : List (List Char)) :
    List (List Char × List Char) × List (List Char) :=
  if cfg.cacheEnabled then addresses.foldl (cacheReadStep cfg store now) ([], [])
  else ([], addresses)

/-- Chunk partition worker (`for (i = 0; i < len; i += maxBatch)`); `fuel`
only drives termination and is ample at the call site for `0 < m` (a zero
`maxBatchSize` would loop forever in the source and is outside the
documented 1..500 bounds). -/
def chunksOfAux {α : Type} [DecidableEq α] (fuel m : Nat) (l : List α) :
    List (List α) :=
  match fuel with
  | 0 => []
  | fuel + 1 =>
    if l = [] then [] else l.take m :: chunksOfAux fuel m (l.drop m)

/-- Partition into chunks of at most `m` elements, in order. -/
def chunksOf {α : Type} [DecidableEq α] (m : Nat) (l : List α) : List (List α) :=
  chunksOfAux l.length m l

/-- The per-chunk cache writes: every chunk address, positive or explicit
negative (`fresh.get(addr.toLowerCase()) || null`), stamped with the chunk's
write time. -/
def chunkWrites (fresh : List (List Char × List Char)) (w : Int)
    (chunk : List (List Char)) : List (List Char × CacheEntry) :=
  chunk.map (fun addr =>
    (cacheKey addr,
      ⟨match mapGet fresh (lowerStr addr) with
        | some nm => if nm = [] then none else some nm
        | none => none,
        w⟩))

/-- The sequential chunk loop of `resolveAddresses`: each chunk issues one
transport call; on success the whole chunk is written to the cache and the
positives merged; a rejected `await resolveViaRPC` propagates out of the
loop, leaving the store as accumulated so far and the remaining chunks
unattempted.  Returns (final store, chunks actually sent, result or
rejection). -/
def runChunks (cfg : ResolveConfig) (transport : Nat → TransportOutcome)
    (wtime : Nat → Int) :
    List (List (List Char)) → Nat → Store → List (List Char × List Char) →
      Store × List (List (List Char)) × Except Unit (List (List Char × List Char))
  | [], _, store, res => (store, [], .ok res)
  | chunk :: rest, j, store, res =>
    match resolveViaRPCModel chunk (transport j) with
    | .error _ => (store, [chunk], .error ())
    | .ok fresh =>
      let store' := if cfg.cacheEnabled then
          storeSetMany store (chunkWrites fresh (wtime j) chunk) else store
      let res' := fresh.foldl (fun m p => mapSet m p.1 p.2) res
      let out := runChunks cfg transport wtime rest (j + 1) store' res'
      (out.1, chunk :: out.2.1, out.2.2)

/-- The outcome of one `resolveAddresses` invocation. -/
structure ResolveOut where
  cache : Store
  calls : List (List (List Char))
  result : Except Unit (List (List Char × List Char))

/-- `resolveAddresses(addresses)`: cache read, chunking of the misses,
sequential chunk loop. -/
def resolveAddressesModel (cfg : ResolveConfig) (transport : Nat → TransportOutcome)
    (wtime : Nat → Int) (now : Int) (store : Store)
    (addresses : List (List Char)) : ResolveOut :=
  let rd := cacheRead cfg store now addresses
  let out := runChunks cfg transport wtime (chunksOf cfg.maxBatchSize rd.2) 0 store rd.1
  ⟨out.1, out.2.1, out.2.2⟩

/-- The message-listener boundary: a fulfilled resolve returns its mapping,
a rejected one is caught and answered with an empty mapping. -/
def resolveMessageResult (out : ResolveOut) : List (List Char × List Char) :=
  match out.result with
  | .ok m => m
  | .error _ => []

/-- The suspension points of one `resolveWithCooldown` invocation, in order:
`waitForCooldown()` is awaited once, then one transport call per attempted
chunk (`resolveAddresses` contains no other await between chunks). -/
inductive RpcEvent
  | cooldownWait
  | rpcCall
deriving DecidableEq

/-- The event trace of `resolveWithCooldown`. -/
def resolveTrace (out : ResolveOut) : List RpcEvent :=
  .cooldownWait :: out.calls.map (fun _ => .rpcCall)

/-- The claim-side temporal property: every transport call is immediately
preceded by a cooldown enforcement. -/
def cooldownBeforeEachCall (tr : List RpcEvent) : Bool :=
  (tr.zip (RpcEvent.rpcCall :: tr)).all (fun p =>
    match p.1, p.2 with
    | .rpcCall, .cooldownWait => true
    | .rpcCall, _ => false
    | _, _ => true)

/-- A one-slot successful `aggregate3` payload resolving the name `"ab"`. -/
def samplePayload1 : List Char := "0x000000000000000000000000000000000000000000000000000000000000002000000000000000000000000000000000000000000000000000000000000000010000000000000000000000000000000000000000000000000000000000000020000000000000000000000000000000000000000000000000000000000000000100000000000000000000000000000000000000000000000000000000000000400000000000000000000000000000000000000000000000000000000000000060000000000000000000000000000000000000000000000000000000000000002000000000000000000000000000000000000000000000000000000000000000026162000000000000000000000000000000000000000000000000000000000000".toList

/-- Configuration of the chunking counterexample: caching off,
`maxBatchSize = 50`. -/
def cfgC7 : ResolveConfig := ⟨false, 3600000, 50⟩

/-- 120 distinct uncached addresses. -/
def addrsC7 : List (List Char) := (List.range 120).map (fun i => '0' :: 'x' :: natToHex i)

/-- The outcome of resolving 120 uncached addresses with every transport
call succeeding (empty result). -/
def outC7 : ResolveOut :=
  resolveAddressesModel cfgC7 (fun _ => .rpcOk none) (fun _ => 0) 0 [] addrsC7

set_option maxRecDepth 40000 in
/-- **C7, counterexample**.  120 uncached addresses with `maxBatchSize = 50`
issue exactly 3 transport calls, but the trace of suspension points contains
a single cooldown enforcement before the first call — the second and third
calls are issued back-to-back, so the claimed "cooldown wait enforced before
each chunk's transport call" is false. -/
theorem C7_counterexample :
    outC7.calls.length = 3 ∧
    resolveTrace outC7 =
      [RpcEvent.cooldownWait, RpcEvent.rpcCall, RpcEvent.rpcCall, RpcEvent.rpcCall] ∧
    cooldownBeforeEachCall (resolveTrace outC7) = false := by
  refine ⟨by decide, by decide, by decide⟩

/-- Configuration of the transport-failure counterexample: caching on,
`maxBatchSize = 1` (so the two addresses form two sibling chunks). -/
def cfgC6 : ResolveConfig := ⟨true, 3600000, 1⟩

/-- Transport oracle: the first chunk's call succeeds with a decoded name,
the second chunk's call rejects. -/
def transportC6 : Nat → TransportOutcome :=
  fun j => if j = 0 then .rpcOk (some samplePayload1) else .netFail

/-- The outcome of resolving `['a', 'b']` under `transportC6`. -/
def outC6 : ResolveOut :=
  resolveAddressesModel cfgC6 transportC6 (fun _ => 5) 0 [] [['a'], ['b']]

set_option maxRecDepth 40000 in
/-- **C6, counterexample**.  The second chunk's transport call fails.  The
failed chunk's address is indeed not cached, and the message boundary
returns an empty mapping without an exception — but the sibling chunk is
*not* unaffected: its transport call succeeded and resolved a name, which
was written to the cache yet is absent from the returned mapping, because
the rejection aborts the whole invocation. -/
theorem C6_counterexample :
    resolveViaRPCModel [['a']] (transportC6 0) = .ok [(['a'], "ab".toList)] ∧
    outC6.calls = [[['a']], [['b']]] ∧
    outC6.result = .error () ∧
    resolveMessageResult outC6 = [] ∧
    mapGet (resolveMessageResult outC6) ['a'] = none ∧
    storeGet outC6.cache (cacheKey ['b']) = none ∧
    storeGet outC6.cache (cacheKey ['a']) =
      some ⟨some "ab".toList, 5⟩ := by
  refine ⟨rfl, by decide, rfl, rfl, by decide, by decide, by decide⟩

/-! ### Chunking and chunk-loop lemmas -/

theorem chunksOfAux_spec {α : Type} [DecidableEq α] {m : Nat} (hm : 0 < m) :
    ∀ (fuel : Nat) (l : List α), l.length ≤ fuel →
      (chunksOfAux fuel m l).flatten = l ∧
      (∀ c ∈ chunksOfAux fuel m l, c.length ≤ m ∧ c ≠ []) ∧
      (chunksOfAux fuel m l).length = (l.length + m - 1) / m := by
  intro fuel
  induction fuel with
  | zero =>
    intro l hl
    have h0 : l = [] := List.eq_nil_of_length_eq_zero (by omega)
    subst h0
    refine ⟨rfl, by simp [chunksOfAux], ?_⟩
    show (0 : Nat) = (0 + m - 1) / m
    rw [Nat.div_eq_of_lt (by omega)]
  | succ fuel ih =>
    intro l hl
    rw [chunksOfAux]
    by_cases hl0 : l = []
    · subst hl0
      refine ⟨by simp, by simp, ?_⟩
      show (List.length ([] : List (List α))) = (0 + m - 1) / m
      rw [Nat.div_eq_of_lt (by omega)]
      rfl
    · rw [if_neg hl0]
      have hlen1 : 1 ≤ l.length := List.length_pos.mpr hl0
      have hdl : (l.drop m).length ≤ fuel := by
        rw [List.length_drop]
        omega
      obtain ⟨ih1, ih2, ih3⟩ := ih (l.drop m) hdl
      refine ⟨?_, ?_, ?_⟩
      · simp only [List.flatten_cons, ih1, List.take_append_drop]
      · intro c hc
        rcases List.mem_cons.mp hc with rfl | hc
        · refine ⟨by rw [List.length_take]; exact min_le_left _ _, ?_⟩
          intro hnil
          rcases List.take_eq_nil_iff.mp hnil with h | h
          · omega
          · exact hl0 h
        · exact ih2 c hc
      · rw [List.length_cons, ih3, List.length_drop]
        have e1 : l.length + m - 1 = (l.length - 1) + m := by omega
        rw [e1, Nat.add_div_right _ hm]
        congr 1
        rcases le_or_lt l.length m with hcase | hcase
        · have h1 : l.length - m = 0 := by omega
          rw [h1, Nat.div_eq_of_lt (by omega), Nat.div_eq_of_lt (by omega)]
        · have e2 : l.length - m + m - 1 = (l.length - 1 - m) + m := by omega
          have e3 : l.length - 1 = (l.length - 1 - m) + m := by omega
          conv_lhs => rw [e2]
          conv_rhs => rw [e3]

theorem chunksOf_spec {α : Type} [DecidableEq α] {m : Nat} (hm : 0 < m)
    (l : List α) :
    (chunksOf m l).flatten = l ∧
    (∀ c ∈ chunksOf m l, c.length ≤ m ∧ c ≠ []) ∧
    (chunksOf m l).length = (l.length + m - 1) / m :=
  chunksOfAux_spec hm l.length l le_rfl

theorem chunksOfAux_subset {α : Type} [DecidableEq α] :
    ∀ (fuel m : Nat) (l : List α) (c : List α),
      c ∈ chunksOfAux fuel m l → ∀ b ∈ c, b ∈ l := by
  intro fuel
  induction fuel with
  | zero =>
    intro m l c hc
    simp [chunksOfAux] at hc
  | succ fuel ih =>
    intro m l c hc b hb
    rw [chunksOfAux] at hc
    split at hc
    · exact absurd hc (by simp)
    · rcases List.mem_cons.mp hc with rfl | hc
      · exact List.take_subset _ _ hb
      · exact List.drop_subset _ _ (ih m (l.drop m) c hc b hb)

theorem chunksOf_subset {α : Type} [DecidableEq α] {m : Nat} {l : List α}
    {c : List α} (hc : c ∈ chunksOf m l) : ∀ b ∈ c, b ∈ l :=
  chunksOfAux_subset l.length m l c hc

theorem resolveViaRPC_ok_of_not_netFail {chunk : List (List Char)}
    {o : TransportOutcome} (h : o ≠ TransportOutcome.netFail) :
    ∃ fresh, resolveViaRPCModel chunk o = .ok fresh := by
  cases o with
  | netFail => exact absurd rfl h
  | rpcOk r => cases r <;> exact ⟨_, rfl⟩

theorem runChunks_ok (cfg : ResolveConfig) (transport : Nat → TransportOutcome)
    (wtime : Nat → Int) (hok : ∀ j, transport j ≠ TransportOutcome.netFail) :
    ∀ (chunks : List (List (List Char))) (j : Nat) (store : Store)
      (res : List (List Char × List Char)),
      (runChunks cfg transport wtime chunks j store res).2.1 = chunks ∧
      ∃ r, (runChunks cfg transport wtime chunks j store res).2.2 = .ok r := by
  intro chunks
  induction chunks with
  | nil => exact fun j store res => ⟨rfl, _, rfl⟩
  | cons chunk rest ih =>
    intro j store res
    obtain ⟨fresh, hfresh⟩ := @resolveViaRPC_ok_of_not_netFail chunk _ (hok j)
    simp only [runChunks, hfresh]
    refine ⟨?_, (ih (j + 1) _ _).2⟩
    rw [(ih (j + 1) _ _).1]

theorem cbec_of_calls (k : Nat) :
    cooldownBeforeEachCall
      (RpcEvent.cooldownWait :: List.replicate k RpcEvent.rpcCall) =
      decide (k ≤ 1) := by
  match k with
  | 0 => decide
  | 1 => decide
  | k + 2 =>
    simp only [List.replicate_succ, cooldownBeforeEachCall, List.zip_cons_cons,
      List.all_cons]
    simp

/-- **C7, amended**.  Per invocation: the uncached addresses are partitioned
in order into exactly `ceil(k/m)` non-empty chunks of at most `m` addresses;
when no transport call rejects, exactly one transport call is issued per
chunk; and the cooldown wait is enforced exactly once, before the first
chunk's transport call — the suspension trace is a single cooldown followed
by the calls, so calls are cooldown-spaced only when there is at most one. -/
theorem C7_amended_chunking_single_cooldown (cfg : ResolveConfig)
    (transport : Nat → TransportOutcome) (wtime : Nat → Int) (now : Int)
    (store : Store) (addresses : List (List Char))
    (hm : 0 < cfg.maxBatchSize)
    (hok : ∀ j, transport j ≠ TransportOutcome.netFail) :
    (resolveAddressesModel cfg transport wtime now store addresses).calls =
      chunksOf cfg.maxBatchSize (cacheRead cfg store now addresses).2 ∧
    (resolveAddressesModel cfg transport wtime now store addresses).calls.flatten =
      (cacheRead cfg store now addresses).2 ∧
    (resolveAddressesModel cfg transport wtime now store addresses).calls.length =
      ((cacheRead cfg store now addresses).2.length + cfg.maxBatchSize - 1) /
        cfg.maxBatchSize ∧
    (∀ c ∈ (resolveAddressesModel cfg transport wtime now store addresses).calls,
      c.length ≤ cfg.maxBatchSize ∧ c ≠ []) ∧
    resolveTrace (resolveAddressesModel cfg transport wtime now store addresses) =
      RpcEvent.cooldownWait ::
        (resolveAddressesModel cfg transport wtime now store
          addresses).calls.map (fun _ => RpcEvent.rpcCall) ∧
    cooldownBeforeEachCall
      (resolveTrace (resolveAddressesModel cfg transport wtime now store addresses)) =
      decide ((resolveAddressesModel cfg transport wtime now store
        addresses).calls.length ≤ 1) := by
  obtain ⟨hfl, hmem, hlen⟩ := chunksOf_spec hm (cacheRead cfg store now addresses).2
  have hcalls : (resolveAddressesModel cfg transport wtime now store addresses).calls =
      chunksOf cfg.maxBatchSize (cacheRead cfg store now addresses).2 :=
    (runChunks_ok cfg transport wtime hok _ 0 store _).1
  refine ⟨hcalls, ?_, ?_, ?_, rfl, ?_⟩
  · rw [hcalls, hfl]
  · rw [hcalls, hlen]
  · rw [hcalls]
    exact hmem
  · rw [resolveTrace, List.map_const']
    rw [cbec_of_calls]

/-- Witness for the amended C7 on the 120-address scenario. -/
theorem C7_amended_chunking_single_cooldown_witness :
    outC7.calls.flatten = (cacheRead cfgC7 [] 0 addrsC7).2 :=
  (C7_amended_chunking_single_cooldown cfgC7 (fun _ => .rpcOk none) (fun _ => 0)
    0 [] addrsC7 (by decide) (fun j h => TransportOutcome.noConfusion h)).2.1

/-- The chunk loop under a first transport failure at chunk index `k`: the
loop rejects, the attempted calls are exactly the chunks up to and including
`k`, and the store carries only the writes of the `k` successful chunks
(chunk `k` and all later chunks are not written). -/
theorem runChunks_fail (cfg : ResolveConfig) (transport : Nat → TransportOutcome)
    (wtime : Nat → Int) :
    ∀ (chunks : List (List (List Char))) (j k : Nat) (store : Store)
      (res : List (List Char × List Char)),
      k < chunks.length →
      (∀ i, i < k → transport (j + i) ≠ TransportOutcome.netFail) →
      transport (j + k) = TransportOutcome.netFail →
      (runChunks cfg transport wtime chunks j store res).2.2 = .error () ∧
      (runChunks cfg transport wtime chunks j store res).2.1 = chunks.take (k + 1) ∧
      (runChunks cfg transport wtime chunks j store res).1 =
        (runChunks cfg transport wtime (chunks.take k) j store res).1 := by
  intro chunks
  induction chunks with
  | nil =>
    intro j k store res hk
    simp at hk
  | cons chunk rest ih =>
    intro j k store res hk hbefore hfail
    cases k with
    | zero =>
      have hj : transport j = .netFail := by simpa using hfail
      have hrpc : resolveViaRPCModel chunk (transport j) = .error () := by
        rw [hj]
        rfl
      simp only [runChunks, hrpc]
      refine ⟨trivial, by simp, trivial⟩
    | succ k' =>
      have hj : transport j ≠ .netFail := by
        have := hbefore 0 (by omega)
        simpa using this
      obtain ⟨fresh, hfresh⟩ := @resolveViaRPC_ok_of_not_netFail chunk _ hj
      have hb' : ∀ i, i < k' → transport (j + 1 + i) ≠ TransportOutcome.netFail := by
        intro i hi
        have := hbefore (i + 1) (by omega)
        rwa [show j + (i + 1) = j + 1 + i by omega] at this
      have hf' : transport (j + 1 + k') = TransportOutcome.netFail := by
        rwa [show j + 1 + k' = j + (k' + 1) by omega]
      obtain ⟨ihr, ihc, ihs⟩ := ih (j + 1) k'
        (if cfg.cacheEnabled then
          storeSetMany store (chunkWrites fresh (wtime j) chunk) else store)
        (fresh.foldl (fun m p => mapSet m p.1 p.2) res)
        (by simpa using hk) hb' hf'
      simp only [runChunks, hfresh, List.take_succ_cons]
      exact ⟨ihr, by rw [ihc], by rw [ihs]⟩

/-- **C6, amended**.  If the first failing transport call of an invocation
is that of chunk `k` (a network rejection or a JSON parse failure), then:
none of chunk `k`'s — or any later chunk's — addresses is written to the
cache, so they stay eligible for retry; no exception passes the
message-listener boundary, the caller receiving an empty mapping; but the
failure aborts the whole invocation — chunks after `k` are never attempted
and even earlier, successful sibling chunks' names, though written to the
cache, are omitted from the returned (empty) mapping. -/
theorem C6_amended_transport_failure (cfg : ResolveConfig)
    (transport : Nat → TransportOutcome) (wtime : Nat → Int) (now : Int)
    (store : Store) (addresses : List (List Char)) (k : Nat)
    (hk : k < (chunksOf cfg.maxBatchSize (cacheRead cfg store now addresses).2).length)
    (hbefore : ∀ i, i < k → transport i ≠ TransportOutcome.netFail)
    (hfail : transport k = TransportOutcome.netFail) :
    (resolveAddressesModel cfg transport wtime now store addresses).result =
      .error () ∧
    resolveMessageResult
      (resolveAddressesModel cfg transport wtime now store addresses) = [] ∧
    (resolveAddressesModel cfg transport wtime now store addresses).calls =
      (chunksOf cfg.maxBatchSize (cacheRead cfg store now addresses).2).take (k + 1) ∧
    (resolveAddressesModel cfg transport wtime now store addresses).cache =
      (runChunks cfg transport wtime
        ((chunksOf cfg.maxBatchSize (cacheRead cfg store now addresses).2).take k)
        0 store (cacheRead cfg store now addresses).1).1 := by
  obtain ⟨h1, h2, h3⟩ := runChunks_fail cfg transport wtime
    (chunksOf cfg.maxBatchSize (cacheRead cfg store now addresses).2) 0 k store
    (cacheRead cfg store now addresses).1 hk
    (by intro i hi; simpa using hbefore i hi) (by simpa using hfail)
  have hres : (resolveAddressesModel cfg transport wtime now store addresses).result =
      (runChunks cfg transport wtime
        (chunksOf cfg.maxBatchSize (cacheRead cfg store now addresses).2) 0 store
        (cacheRead cfg store now addresses).1).2.2 := rfl
  have hcalls : (resolveAddressesModel cfg transport wtime now store addresses).calls =
      (runChunks cfg transport wtime
        (chunksOf cfg.maxBatchSize (cacheRead cfg store now addresses).2) 0 store
        (cacheRead cfg store now addresses).1).2.1 := rfl
  have hcache : (resolveAddressesModel cfg transport wtime now store addresses).cache =
      (runChunks cfg transport wtime
        (chunksOf cfg.maxBatchSize (cacheRead cfg store now addresses).2) 0 store
        (cacheRead cfg store now addresses).1).1 := rfl
  refine ⟨hres.trans h1, ?_, hcalls.trans h2, hcache.trans h3⟩
  rw [resolveMessageResult, hres, h1]

/-- Witness for the amended C6 on the concrete two-chunk scenario. -/
theorem C6_amended_transport_failure_witness :
    outC6.calls = (chunksOf cfgC6.maxBatchSize
      (cacheRead cfgC6 [] 0 [['a'], ['b']]).2).take 2 :=
  (C6_amended_transport_failure cfgC6 transportC6 (fun _ => 5) 0 [] [['a'], ['b']]
    1 (by decide) (by decide) (by decide)).2.2.1

/-! ### Association-list and chunk-loop lemmas for the cache contract (C8) -/

theorem find?_key_filter_ne {β : Type} (m : List (List Char × β)) (k k' : List Char)
    (h : k' ≠ k) :
    (m.filter (fun p => !(p.1 == k))).find? (fun p => p.1 == k') =
      m.find? (fun p => p.1 == k') := by
  induction m with
  | nil => rfl
  | cons p t ih =>
    by_cases hp : p.1 = k
    · rw [List.filter_cons, if_neg (by simp [hp]), ih, List.find?_cons,
        show (p.1 == k') = false from beq_eq_false_iff_ne.mpr (by rw [hp]; exact h.symm)]
    · rw [List.filter_cons, if_pos (by simp [hp]), List.find?_cons, List.find?_cons]
      by_cases hk' : p.1 = k'
      · rw [show (p.1 == k') = true from beq_iff_eq.mpr hk']
      · rw [show (p.1 == k') = false from beq_eq_false_iff_ne.mpr hk', ih]

theorem mapGet_mapSet (m : List (List Char × List Char)) (k v k' : List Char) :
    mapGet (mapSet m k v) k' = if k' = k then some v else mapGet m k' := by
  rw [mapGet, mapSet, List.find?_cons]
  by_cases h : k' = k
  · subst h
    rw [show ((k', v).1 == k') = true from beq_iff_eq.mpr rfl, if_pos rfl]
    rfl
  · rw [show ((k, v).1 == k') = false from beq_eq_false_iff_ne.mpr (Ne.symm h),
      if_neg h, mapGet, find?_key_filter_ne m k k' h]

theorem storeGet_storeSetOne (s : Store) (k : List Char) (v : CacheEntry)
    (k' : List Char) :
    storeGet (storeSetOne s k v) k' = if k' = k then some v else storeGet s k' := by
  rw [storeGet, storeSetOne, List.find?_cons]
  by_cases h : k' = k
  · subst h
    rw [show ((k', v).1 == k') = true from beq_iff_eq.mpr rfl, if_pos rfl]
    rfl
  · rw [show ((k, v).1 == k') = false from beq_eq_false_iff_ne.mpr (Ne.symm h),
      if_neg h, storeGet, find?_key_filter_ne s k k' h]

theorem storeGet_storeSetMany_not_mem {kvs : List (List Char × CacheEntry)}
    {k : List Char} (h : ∀ p ∈ kvs, p.1 ≠ k) :
    ∀ s : Store, storeGet (storeSetMany s kvs) k = storeGet s k := by
  induction kvs with
  | nil => intro s; rfl
  | cons p t ih =>
    intro s
    rw [storeSetMany, List.foldl_cons]
    have := ih (fun q hq => h q (by simp [hq])) (storeSetOne s p.1 p.2)
    rw [storeSetMany] at this
    rw [this, storeGet_storeSetOne,
      if_neg (fun he : k = p.1 => h p (by simp) he.symm)]

theorem storeGet_storeSetMany_val {kvs : List (List Char × CacheEntry)}
    {k : List Char} {v : CacheEntry} (hex : ∃ p ∈ kvs, p.1 = k)
    (hall : ∀ p ∈ kvs, p.1 = k → p.2 = v) :
    ∀ s : Store, storeGet (storeSetMany s kvs) k = some v := by
  induction kvs with
  | nil =>
    rcases hex with ⟨p, hp, _⟩
    exact absurd hp (List.not_mem_nil p)
  | cons p t ih =>
    intro s
    rw [storeSetMany, List.foldl_cons]
    rcases Classical.em (∃ q ∈ t, q.1 = k) with ht | ht
    · have := ih ht (fun q hq => hall q (by simp [hq])) (storeSetOne s p.1 p.2)
      rw [storeSetMany] at this
      exact this
    · push_neg at ht
      have hp1 : p.1 = k := by
        rcases hex with ⟨q, hq, hqk⟩
        rcases List.mem_cons.mp hq with rfl | hq
        · exact hqk
        · exact absurd hqk (ht q hq)
      have hp2 : p.2 = v := hall p (by simp) hp1
      have hpres := @storeGet_storeSetMany_not_mem t k ht
        (storeSetOne s p.1 p.2)
      rw [storeSetMany] at hpres
      rw [hpres, storeGet_storeSetOne, hp1, if_pos rfl, hp2]

theorem mem_mapSet {m : List (List Char × List Char)} {k v : List Char}
    {p : List Char × List Char} (h : p ∈ mapSet m k v) : p = (k, v) ∨ p ∈ m := by
  rw [mapSet] at h
  rcases List.mem_cons.mp h with rfl | h
  · exact Or.inl rfl
  · exact Or.inr (List.mem_of_mem_filter h)

theorem isSome_map_snd {β : Type} (o : Option (List Char × β)) :
    (o.map (fun p => p.2)).isSome = o.isSome := by
  cases o <;> rfl

theorem mapGet_isSome_iff {m : List (List Char × List Char)} {k : List Char} :
    (mapGet m k).isSome ↔ ∃ p ∈ m, p.1 = k := by
  rw [mapGet, isSome_map_snd, List.find?_isSome]
  constructor
  · rintro ⟨p, hp, hpk⟩
    exact ⟨p, hp, beq_iff_eq.mp hpk⟩
  · rintro ⟨p, hp, hpk⟩
    exact ⟨p, hp, beq_iff_eq.mpr hpk⟩

theorem mapGet_fold_isSome_mono {entries : List (List Char × List Char)}
    {k : List Char} :
    ∀ {res : List (List Char × List Char)}, (mapGet res k).isSome →
      (mapGet (entries.foldl (fun m p => mapSet m p.1 p.2) res) k).isSome := by
  induction entries with
  | nil => exact fun h => h
  | cons p t ih =>
    intro res h
    rw [List.foldl_cons]
    apply ih
    rw [mapGet_mapSet]
    split
    · rfl
    · exact h

theorem mapGet_fold_isSome_of_mem {entries : List (List Char × List Char)}
    {k : List Char} (h : ∃ p ∈ entries, p.1 = k) :
    ∀ res : List (List Char × List Char),
      (mapGet (entries.foldl (fun m p => mapSet m p.1 p.2) res) k).isSome := by
  induction entries with
  | nil => simp at h
  | cons p t ih =>
    intro res
    rw [List.foldl_cons]
    by_cases ht : ∃ q ∈ t, q.1 = k
    · exact ih ht _
    · apply mapGet_fold_isSome_mono
      rcases h with ⟨q, hq, hqk⟩
      rcases List.mem_cons.mp hq with rfl | hq
      · rw [mapGet_mapSet, if_pos hqk.symm]
        rfl
      · exact absurd hqk (by push_neg at ht; exact ht q hq)

theorem mapGet_fold_isSome_inv {entries : List (List Char × List Char)}
    {k : List Char} :
    ∀ {res : List (List Char × List Char)},
      (mapGet (entries.foldl (fun m p => mapSet m p.1 p.2) res) k).isSome →
      (mapGet res k).isSome ∨ ∃ p ∈ entries, p.1 = k := by
  induction entries with
  | nil => exact fun h => Or.inl h
  | cons p t ih =>
    intro res h
    rw [List.foldl_cons] at h
    rcases ih h with h1 | h1
    · rw [mapGet_mapSet] at h1
      split at h1
      · rename_i he
        exact Or.inr ⟨p, by simp, he.symm⟩
      · exact Or.inl h1
    · rcases h1 with ⟨q, hq, hqk⟩
      exact Or.inr ⟨q, by simp [hq], hqk⟩

theorem cacheKey_congr {a b : List Char} (h : lowerStr a = lowerStr b) :
    cacheKey a = cacheKey b := by
  rw [cacheKey, cacheKey, h]

theorem lowerStr_of_cacheKey_eq {a b : List Char} (h : cacheKey a = cacheKey b) :
    lowerStr a = lowerStr b := by
  rw [cacheKey, cacheKey] at h
  exact List.append_cancel_left h

theorem resolveViaRPC_keys {chunk : List (List Char)} {o : TransportOutcome}
    {fresh : List (List Char × List Char)}
    (h : resolveViaRPCModel chunk o = .ok fresh) :
    ∀ p ∈ fresh, ∃ b ∈ chunk, p.1 = lowerStr b := by
  cases o with
  | netFail => simp [resolveViaRPCModel] at h
  | rpcOk r =>
    cases r with
    | none =>
      obtain rfl : ([] : List (List Char × List Char)) = fresh := by
        simpa [resolveViaRPCModel] using h
      intro p hp
      exact absurd hp (List.not_mem_nil p)
    | some resHex =>
      have hf : ((List.range chunk.length).foldl
          (fun m i =>
            match chunk.get? i, (decodeAggregate3 resHex).get? i with
            | some addr, some (some nm) =>
              if nm = [] then m else mapSet m (lowerStr addr) nm
            | _, _ => m) []) = fresh := by
        simpa [resolveViaRPCModel] using h
      rw [← hf]
      have hgen : ∀ (idxs : List Nat) (m0 : List (List Char × List Char)),
          (∀ p ∈ m0, ∃ b ∈ chunk, p.1 = lowerStr b) →
          ∀ p ∈ idxs.foldl
            (fun m i =>
              match chunk.get? i, (decodeAggregate3 resHex).get? i with
              | some addr, some (some nm) =>
                if nm = [] then m else mapSet m (lowerStr addr) nm
              | _, _ => m) m0,
            ∃ b ∈ chunk, p.1 = lowerStr b := by
        intro idxs
        induction idxs with
        | nil => exact fun m0 h0 => h0
        | cons i t ih =>
          intro m0 h0 p hp
          rw [List.foldl_cons] at hp
          refine ih _ ?_ p hp
          intro q hq
          cases hga : chunk.get? i with
          | none => rw [hga] at hq; exact h0 q hq
          | some addr =>
            cases hgn : (decodeAggregate3 resHex).get? i with
            | none => rw [hga, hgn] at hq; exact h0 q hq
            | some onm =>
              cases onm with
              | none => rw [hga, hgn] at hq; exact h0 q hq
              | some nm =>
                simp only [hga, hgn] at hq
                by_cases hnm : nm = []
                · rw [if_pos hnm] at hq
                  exact h0 q hq
                · rw [if_neg hnm] at hq
                  rcases mem_mapSet hq with rfl | hq
                  · exact ⟨addr, List.get?_mem hga, rfl⟩
                  · exact h0 q hq
      exact hgen _ [] (fun p hp => absurd hp (List.not_mem_nil p))

theorem chunkWrites_keys {fresh : List (List Char × List Char)} {w : Int}
    {chunk : List (List Char)} {p : List Char × CacheEntry}
    (h : p ∈ chunkWrites fresh w chunk) : ∃ b ∈ chunk, p.1 = cacheKey b := by
  rw [chunkWrites] at h
  rcases List.mem_map.mp h with ⟨b, hb, hpb⟩
  exact ⟨b, hb, by rw [← hpb]⟩

theorem runChunks_calls_subset (cfg : ResolveConfig)
    (transport : Nat → TransportOutcome) (wtime : Nat → Int) :
    ∀ (chunks : List (List (List Char))) (j : Nat) (store : Store)
      (res : List (List Char × List Char)) (c : List (List Char)),
      c ∈ (runChunks cfg transport wtime chunks j store res).2.1 → c ∈ chunks := by
  intro chunks
  induction chunks with
  | nil =>
    intro j store res c hc
    exact absurd hc (List.not_mem_nil c)
  | cons chunk rest ih =>
    intro j store res c hc
    cases hrpc : resolveViaRPCModel chunk (transport j) with
    | error e =>
      simp only [runChunks, hrpc] at hc
      rcases List.mem_singleton.mp hc with rfl
      simp
    | ok fresh =>
      simp only [runChunks, hrpc] at hc
      rcases List.mem_cons.mp hc with rfl | hc
      · simp
      · exact List.mem_cons_of_mem _ (ih _ _ _ c hc)

theorem runChunks_res_mono (cfg : ResolveConfig)
    (transport : Nat → TransportOutcome) (wtime : Nat → Int) (k : List Char) :
    ∀ (chunks : List (List (List Char))) (j : Nat) (store : Store)
      (res r : List (List Char × List Char)),
      (runChunks cfg transport wtime chunks j store res).2.2 = .ok r →
      (mapGet res k).isSome → (mapGet r k).isSome := by
  intro chunks
  induction chunks with
  | nil =>
    intro j store res r hok h
    obtain rfl : res = r := by simpa [runChunks] using hok
    exact h
  | cons chunk rest ih =>
    intro j store res r hok h
    cases hrpc : resolveViaRPCModel chunk (transport j) with
    | error e =>
      rw [show (runChunks cfg transport wtime (chunk :: rest) j store res).2.2 =
        .error () by simp [runChunks, hrpc]] at hok
      exact absurd hok (by simp)
    | ok fresh =>
      simp only [runChunks, hrpc] at hok
      exact ih _ _ _ r hok (mapGet_fold_isSome_mono h)

theorem runChunks_res_keys (cfg : ResolveConfig)
    (transport : Nat → TransportOutcome) (wtime : Nat → Int) (k : List Char) :
    ∀ (chunks : List (List (List Char))) (j : Nat) (store : Store)
      (res r : List (List Char × List Char)),
      (runChunks cfg transport wtime chunks j store res).2.2 = .ok r →
      (mapGet r k).isSome →
      (mapGet res k).isSome ∨ ∃ c ∈ chunks, ∃ b ∈ c, k = lowerStr b := by
  intro chunks
  induction chunks with
  | nil =>
    intro j store res r hok h
    obtain rfl : res = r := by simpa [runChunks] using hok
    exact Or.inl h
  | cons chunk rest ih =>
    intro j store res r hok h
    cases hrpc : resolveViaRPCModel chunk (transport j) with
    | error e =>
      rw [show (runChunks cfg transport wtime (chunk :: rest) j store res).2.2 =
        .error () by simp [runChunks, hrpc]] at hok
      exact absurd hok (by simp)
    | ok fresh =>
      simp only [runChunks, hrpc] at hok
      rcases ih _ _ _ r hok h with h1 | ⟨c, hc, b, hb, hk⟩
      · rcases mapGet_fold_isSome_inv h1 with h2 | ⟨p, hp, hpk⟩
        · exact Or.inl h2
        · rcases resolveViaRPC_keys hrpc p hp with ⟨b, hb, hpl⟩
          exact Or.inr ⟨chunk, by simp, b, hb, by rw [← hpk, hpl]⟩
      · exact Or.inr ⟨c, by simp [hc], b, hb, hk⟩

theorem runChunks_store_pres (cfg : ResolveConfig)
    (transport : Nat → TransportOutcome) (wtime : Nat → Int) (key : List Char) :
    ∀ (chunks : List (List (List Char))) (j : Nat) (store : Store)
      (res : List (List Char × List Char)),
      (∀ c ∈ chunks, ∀ b ∈ c, cacheKey b ≠ key) →
      storeGet (runChunks cfg transport wtime chunks j store res).1 key =
        storeGet store key := by
  intro chunks
  induction chunks with
  | nil => intro j store res _; rfl
  | cons chunk rest ih =>
    intro j store res hdisj
    cases hrpc : resolveViaRPCModel chunk (transport j) with
    | error e => simp [runChunks, hrpc]
    | ok fresh =>
      simp only [runChunks, hrpc]
      rw [ih _ _ _ (fun c hc => hdisj c (by simp [hc]))]
      by_cases hce : cfg.cacheEnabled
      · rw [if_pos hce]
        apply storeGet_storeSetMany_not_mem
        intro p hp
        rcases chunkWrites_keys hp with ⟨b, hb, hpb⟩
        rw [hpb]
        exact hdisj chunk (by simp) b hb
      · rw [if_neg hce]

/-- A fully successful chunk loop writes an explicit negative entry for an
address it processed whose name is absent from the final result mapping. -/
theorem runChunks_negwrite (cfg : ResolveConfig)
    (transport : Nat → TransportOutcome) (wtime : Nat → Int)
    (hce : cfg.cacheEnabled = true) (a : List Char) :
    ∀ (chunks : List (List (List Char))) (j : Nat) (store : Store)
      (res r : List (List Char × List Char)),
      (runChunks cfg transport wtime chunks j store res).2.2 = .ok r →
      a ∈ chunks.flatten →
      (∀ c ∈ chunks, ∀ b ∈ c, cacheKey b = cacheKey a → b = a) →
      mapGet r (lowerStr a) = none →
      ∃ j', storeGet (runChunks cfg transport wtime chunks j store res).1
        (cacheKey a) = some ⟨none, wtime j'⟩ := by
  intro chunks
  induction chunks with
  | nil =>
    intro j store res r _ ha
    simp at ha
  | cons chunk rest ih =>
    intro j store res r hok ha huniq hnone
    cases hrpc : resolveViaRPCModel chunk (transport j) with
    | error e =>
      rw [show (runChunks cfg transport wtime (chunk :: rest) j store res).2.2 =
        .error () by simp [runChunks, hrpc]] at hok
      exact absurd hok (by simp)
    | ok fresh =>
      simp only [runChunks, hrpc] at hok ⊢
      by_cases har : a ∈ rest.flatten
      · exact ih _ _ _ r hok har (fun c hc => huniq c (by simp [hc])) hnone
      · have hain : a ∈ chunk := by
          rw [List.flatten_cons] at ha
          rcases List.mem_append.mp ha with h | h
          · exact h
          · exact absurd h har
        have hfr : mapGet fresh (lowerStr a) = none := by
          by_contra hsome
          have h1 : (mapGet fresh (lowerStr a)).isSome :=
            Option.ne_none_iff_isSome.mp hsome
          have h2 : ∃ p ∈ fresh, p.1 = lowerStr a := mapGet_isSome_iff.mp h1
          have h3 := mapGet_fold_isSome_of_mem h2 res
          have h4 := runChunks_res_mono cfg transport wtime (lowerStr a)
            rest (j + 1) _ _ r hok h3
          rw [hnone] at h4
          simp at h4
        have hw : storeGet (if cfg.cacheEnabled then
            storeSetMany store (chunkWrites fresh (wtime j) chunk) else store)
            (cacheKey a) = some ⟨none, wtime j⟩ := by
          rw [if_pos hce]
          apply storeGet_storeSetMany_val
          · refine ⟨(cacheKey a,
              ⟨match mapGet fresh (lowerStr a) with
                | some nm => if nm = [] then none else some nm
                | none => none,
                wtime j⟩), ?_, rfl⟩
            rw [chunkWrites]
            exact List.mem_map.mpr ⟨a, hain, rfl⟩
          · intro p hp hpk
            rw [chunkWrites] at hp
            rcases List.mem_map.mp hp with ⟨b', hb', hpb'⟩
            have h1 : cacheKey b' = cacheKey a := by
              rw [← hpk, ← hpb']
            have hba : b' = a := huniq chunk (by simp) b' hb' h1
            subst hba
            rw [← hpb']
            simp only [hfr]
        have hpres : storeGet ((runChunks cfg transport wtime rest (j + 1)
            (if cfg.cacheEnabled then
              storeSetMany store (chunkWrites fresh (wtime j) chunk) else store)
            (fresh.foldl (fun m p => mapSet m p.1 p.2) res)).1) (cacheKey a) =
            storeGet (if cfg.cacheEnabled then
              storeSetMany store (chunkWrites fresh (wtime j) chunk) else store)
            (cacheKey a) := by
          apply runChunks_store_pres
          intro c hc b hb hkey
          have hba : b = a := huniq c (by simp [hc]) b hb hkey
          subst hba
          exact har (List.mem_flatten.mpr ⟨c, hc, hb⟩)
        exact ⟨j, by rw [hpres, hw]⟩

/-- Addresses in the `uncached` output of the cache read are input addresses
whose entry was missing or stale. -/
theorem cacheRead_uncached_spec (cfg : ResolveConfig) (store : Store) (now : Int) :
    ∀ (addresses : List (List Char))
      (acc : List (List Char × List Char) × List (List Char)) (b : List Char),
      b ∈ (addresses.foldl (cacheReadStep cfg store now) acc).2 →
      b ∈ acc.2 ∨ (b ∈ addresses ∧
        (storeGet store (cacheKey b) = none ∨
          ∃ e, storeGet store (cacheKey b) = some e ∧
            ¬(now - e.t < cfg.cacheTtlMs))) := by
  intro addresses
  induction addresses with
  | nil => exact fun acc b hb => Or.inl hb
  | cons x t ih =>
    intro acc b hb
    rw [List.foldl_cons] at hb
    rcases ih (cacheReadStep cfg store now acc x) b hb with h1 | ⟨h1, h2⟩
    · rw [cacheReadStep] at h1
      cases hg : storeGet store (cacheKey x) with
      | none =>
        simp only [hg] at h1
        rcases List.mem_append.mp h1 with h | h
        · exact Or.inl h
        · rcases List.mem_singleton.mp h with rfl
          exact Or.inr ⟨by simp, Or.inl hg⟩
      | some e =>
        simp only [hg] at h1
        by_cases hfresh : now - e.t < cfg.cacheTtlMs
        · rw [if_pos hfresh] at h1
          cases hn : e.n with
          | none =>
            simp only [hn] at h1
            exact Or.inl h1
          | some nm =>
            simp only [hn] at h1
            by_cases hnm : nm = []
            · rw [if_pos hnm] at h1
              exact Or.inl h1
            · rw [if_neg hnm] at h1
              exact Or.inl h1
        · rw [if_neg hfresh] at h1
          rcases List.mem_append.mp h1 with h | h
          · exact Or.inl h
          · rcases List.mem_singleton.mp h with rfl
            exact Or.inr ⟨by simp, Or.inr ⟨e, hg, hfresh⟩⟩
    · exact Or.inr ⟨by simp [h1], h2⟩

/-- A key present in the results accumulated by the cache read comes either
from the initial accumulator or from a fresh cache entry with a truthy
name. -/
theorem cacheRead_res_keys (cfg : ResolveConfig) (store : Store) (now : Int)
    (k : List Char) :
    ∀ (addresses : List (List Char))
      (acc : List (List Char × List Char) × List (List Char)),
      (mapGet (addresses.foldl (cacheReadStep cfg store now) acc).1 k).isSome →
      (mapGet acc.1 k).isSome ∨
        ∃ b ∈ addresses, k = lowerStr b ∧
          ∃ e, storeGet store (cacheKey b) = some e ∧
            now - e.t < cfg.cacheTtlMs ∧ ∃ nm, e.n = some nm ∧ nm ≠ [] := by
  intro addresses
  induction addresses with
  | nil => exact fun acc h => Or.inl h
  | cons x t ih =>
    intro acc h
    rw [List.foldl_cons] at h
    rcases ih (cacheReadStep cfg store now acc x) h with h1 | ⟨b, hb, hk, e, hg, hf, hnm⟩
    · rw [cacheReadStep] at h1
      cases hg : storeGet store (cacheKey x) with
      | none =>
        simp only [hg] at h1
        exact Or.inl h1
      | some e =>
        simp only [hg] at h1
        by_cases hfresh : now - e.t < cfg.cacheTtlMs
        · rw [if_pos hfresh] at h1
          cases hn : e.n with
          | none =>
            simp only [hn] at h1
            exact Or.inl h1
          | some nm =>
            simp only [hn] at h1
            by_cases hnm : nm = []
            · rw [if_pos hnm] at h1
              exact Or.inl h1
            · rw [if_neg hnm] at h1
              rw [mapGet_mapSet] at h1
              split at h1
              · rename_i hkx
                exact Or.inr ⟨x, by simp, hkx, e, hg, hfresh, nm, hn, hnm⟩
              · exact Or.inl h1
        · rw [if_neg hfresh] at h1
          exact Or.inl h1
    · exact Or.inr ⟨b, by simp [hb], hk, e, hg, hf, hnm⟩

/-- **C8**.  First part: an address whose cache entry is fresh
(`now − t < TTL`) with a null name is a negative-cache hit — no transport
call of the invocation contains that address (nor any address with its
cache key), and the address is absent from the mapping the caller receives.
Second part: after an invocation in which the address was uncached, every
chunk succeeded and the returned mapping contains no name for it, the cache
holds a fresh null-name entry stamped with a chunk write time — so every
subsequent resolve within the TTL window satisfies the first part with no
transport call for the address. -/
theorem C8_negative_cache :
    (∀ (cfg : ResolveConfig) (transport : Nat → TransportOutcome)
        (wtime : Nat → Int) (now : Int) (store : Store)
        (addresses : List (List Char)) (a : List Char) (t' : Int),
      cfg.cacheEnabled = true →
      storeGet store (cacheKey a) = some ⟨none, t'⟩ →
      now - t' < cfg.cacheTtlMs →
      (∀ c ∈ (resolveAddressesModel cfg transport wtime now store addresses).calls,
        ∀ b ∈ c, cacheKey b ≠ cacheKey a) ∧
      mapGet (resolveMessageResult
          (resolveAddressesModel cfg transport wtime now store addresses))
        (lowerStr a) = none) ∧
    (∀ (cfg : ResolveConfig) (transport : Nat → TransportOutcome)
        (wtime : Nat → Int) (now : Int) (store : Store)
        (addresses : List (List Char)) (a : List Char)
        (r : List (List Char × List Char)),
      cfg.cacheEnabled = true → 0 < cfg.maxBatchSize →
      (∀ b ∈ addresses, cacheKey b = cacheKey a → b = a) →
      a ∈ (cacheRead cfg store now addresses).2 →
      (resolveAddressesModel cfg transport wtime now store addresses).result =
        .ok r →
      mapGet r (lowerStr a) = none →
      ∃ j, storeGet
        (resolveAddressesModel cfg transport wtime now store addresses).cache
        (cacheKey a) = some ⟨none, wtime j⟩) := by
  constructor
  · intro cfg transport wtime now store addresses a t' hce he hf
    have hkeyne : ∀ b : List Char, b ∈ (cacheRead cfg store now addresses).2 →
        cacheKey b ≠ cacheKey a := by
      intro b hb hkey
      rw [cacheRead, if_pos hce] at hb
      rcases cacheRead_uncached_spec cfg store now addresses ([], []) b hb with
        h | ⟨_, hcond⟩
      · exact absurd h (List.not_mem_nil b)
      · rcases hcond with hnone | ⟨e, hg, hstale⟩
        · rw [hkey, he] at hnone
          exact Option.noConfusion hnone
        · rw [hkey, he] at hg
          obtain rfl : (⟨none, t'⟩ : CacheEntry) = e := Option.some.inj hg
          exact hstale hf
    have hcallb : (resolveAddressesModel cfg transport wtime now store
        addresses).calls =
        (runChunks cfg transport wtime
          (chunksOf cfg.maxBatchSize (cacheRead cfg store now addresses).2) 0
          store (cacheRead cfg store now addresses).1).2.1 := rfl
    have hresb : (resolveAddressesModel cfg transport wtime now store
        addresses).result =
        (runChunks cfg transport wtime
          (chunksOf cfg.maxBatchSize (cacheRead cfg store now addresses).2) 0
          store (cacheRead cfg store now addresses).1).2.2 := rfl
    constructor
    · intro c hc b hb
      rw [hcallb] at hc
      have hc' := runChunks_calls_subset cfg transport wtime _ 0 _ _ c hc
      exact hkeyne b (chunksOf_subset hc' b hb)
    · cases hres : (resolveAddressesModel cfg transport wtime now store
          addresses).result with
      | error e =>
        rw [resolveMessageResult, hres]
        rfl
      | ok r =>
        rw [resolveMessageResult, hres]
        by_contra hsome
        have h1 : (mapGet r (lowerStr a)).isSome :=
          Option.ne_none_iff_isSome.mp hsome
        have hrr := (hresb.symm.trans hres)
        rcases runChunks_res_keys cfg transport wtime (lowerStr a) _ 0 _ _ r hrr h1
          with h2 | ⟨c, hc, b, hb, hk⟩
        · rw [show (cacheRead cfg store now addresses).1 =
              (addresses.foldl (cacheReadStep cfg store now) ([], [])).1 from
              by rw [cacheRead, if_pos hce]] at h2
          rcases cacheRead_res_keys cfg store now (lowerStr a) addresses
            ([], []) h2 with h3 | ⟨b, hb, hk, e, hg, hfr2, nm, hnn, _⟩
          · rw [show mapGet (([] : List (List Char × List Char)),
              ([] : List (List Char))).1 (lowerStr a) = none from rfl] at h3
            exact absurd h3 (by simp)
          · have hkey : cacheKey b = cacheKey a := cacheKey_congr hk.symm
            rw [hkey, he] at hg
            obtain rfl : (⟨none, t'⟩ : CacheEntry) = e := Option.some.inj hg
            exact Option.noConfusion hnn
        · exact hkeyne b (chunksOf_subset hc b hb) (cacheKey_congr hk.symm)
  · intro cfg transport wtime now store addresses a r hce hm huniq hun hres hnone
    have hfl : (chunksOf cfg.maxBatchSize
        (cacheRead cfg store now addresses).2).flatten =
        (cacheRead cfg store now addresses).2 :=
      (chunksOf_spec hm (cacheRead cfg store now addresses).2).1
    have ha : a ∈ (chunksOf cfg.maxBatchSize
        (cacheRead cfg store now addresses).2).flatten := by
      rw [hfl]
      exact hun
    have huniq' : ∀ c ∈ chunksOf cfg.maxBatchSize
        (cacheRead cfg store now addresses).2, ∀ b ∈ c,
        cacheKey b = cacheKey a → b = a := by
      intro c hc b hb hkey
      have hb' : b ∈ (cacheRead cfg store now addresses).2 :=
        chunksOf_subset hc b hb
      rw [cacheRead, if_pos hce] at hb'
      rcases cacheRead_uncached_spec cfg store now addresses ([], []) b hb' with
        h | ⟨hmem, _⟩
      · exact absurd h (List.not_mem_nil b)
      · exact huniq b hmem hkey
    have hresb : (resolveAddressesModel cfg transport wtime now store
        addresses).result =
        (runChunks cfg transport wtime
          (chunksOf cfg.maxBatchSize (cacheRead cfg store now addresses).2) 0
          store (cacheRead cfg store now addresses).1).2.2 := rfl
    obtain ⟨j, hj⟩ := runChunks_negwrite cfg transport wtime hce a
      (chunksOf cfg.maxBatchSize (cacheRead cfg store now addresses).2) 0 store
      (cacheRead cfg store now addresses).1 r (hresb.symm.trans hres) ha huniq'
      hnone
    exact ⟨j, hj⟩

/-- Witness for C8: a fresh null entry for `'a'` keeps it out of the
returned mapping of a concrete resolve call. -/
theorem C8_negative_cache_witness :
    mapGet (resolveMessageResult (resolveAddressesModel ⟨true, 1000, 1⟩
        (fun _ => .rpcOk none) (fun _ => 7) 5
        [(cacheKey ['a'], ⟨none, 0⟩)] [['a'], ['b']]))
      (lowerStr ['a']) = none :=
  (C8_negative_cache.1 ⟨true, 1000, 1⟩ (fun _ => .rpcOk none) (fun _ => 7) 5
    [(cacheKey ['a'], ⟨none, 0⟩)] [['a'], ['b']] ['a'] 0 rfl (by decide)
    (by decide)).2

end WNS
